import Mathlib

/-!
Verification of the patch-planning-and-application engine of the
scrapbox-skill repository (`src/client.ts`).

The pure planning layer (`splitLines`, `buildOps`, `groupOps` and the
descending-index application order of `applyOps`) is embedded directly from
the source.  The line-level diff is provided externally by the `diff`
library's `diffLines`; it is modelled here (see `diffLAux`) as an
LCS-style line diff whose output at each change site lists the removed run
before the added run, matching that library's documented output
convention.  Browser-effecting code (`patch`, `tryInternalPatch`,
`applyOps`) is embedded as pure functions that return a result together
with an explicit trace of the externally visible actions.
-/

namespace ScrapboxSkill

/-- One line of a document as observed from the page JSON
(`type LineInfo = { id?: string; text: string }`). -/
structure LineInfo where
  id : Option String
  text : String
deriving DecidableEq, Repr

/-- Split a character list at newline characters (every occurrence splits;
a trailing newline yields a trailing empty chunk), the behaviour of
JavaScript `value.split('\n')`. -/
def splitChars : List Char → List (List Char)
  | [] => [[]]
  | c :: cs =>
    if c = '\n' then [] :: splitChars cs
    else
      match splitChars cs with
      | [] => [[c]]
      | l :: ls => (c :: l) :: ls

/-- `value.split('\n')` on a Lean string. -/
def splitRaw (s : String) : List String :=
  (splitChars s.data).map (fun l => String.mk l)

/-- `splitLines` from `client.ts`: split on the line separator and drop a
single trailing empty line artifact. -/
def splitLines (value : String) : List String :=
  let lines := splitRaw value
  match lines.getLast? with
  | some "" => lines.dropLast
  | _ => lines

/-- `linesToText` from `client.ts`: join the `text` fields with the line
separator. -/
def linesToText (lines : List LineInfo) : String :=
  String.intercalate "\n" (lines.map (fun l => l.text))

/-- Tag of one run of a line diff: the run is common to both texts, only in
the new text, or only in the old text. -/
inductive ChangeTag
  | unchanged
  | added
  | removed
deriving DecidableEq, Repr

/-- One run of a line-level diff, as produced by the external diff
library: a list of lines together with its tag.  (The library's change
objects carry the run as a string with line terminators; `buildOps`
immediately re-splits it, so the run is embedded at line granularity.) -/
structure Change where
  value : List String
  tag : ChangeTag
deriving DecidableEq, Repr

/-- Number of added plus removed lines of a change list; the quantity an
LCS-style diff minimises. -/
def diffCost : List Change → Nat
  | [] => 0
  | c :: cs => (if c.tag = ChangeTag.unchanged then 0 else c.value.length) + diffCost cs

/-- Modelled from the spec: the external diff library's `diffLines`
(`src/client.ts` imports it from `diff`; its code is not part of this
repository).  The spec describes it as a line-granular LCS-style
alignment producing runs tagged unchanged / added / removed.  The model
recurses on both line lists with a fuel argument, takes common head lines
as unchanged runs, otherwise picks the cheaper of remove-first /
add-first, preferring the removed run on ties so that at each change site
the removed run precedes the added run — the output order of the external
library. -/
def diffLAux : Nat → List String → List String → List Change
  | 0, as, bs =>
    (if as = [] then [] else [⟨as, ChangeTag.removed⟩]) ++
      (if bs = [] then [] else [⟨bs, ChangeTag.added⟩])
  | _ + 1, [], [] => []
  | _ + 1, [], b :: bs => [⟨b :: bs, ChangeTag.added⟩]
  | _ + 1, a :: as, [] => [⟨a :: as, ChangeTag.removed⟩]
  | f + 1, a :: as, b :: bs =>
    if a = b then ⟨[a], ChangeTag.unchanged⟩ :: diffLAux f as bs
    else
      let d1 := ⟨[a], ChangeTag.removed⟩ :: diffLAux f as (b :: bs)
      let d2 := ⟨[b], ChangeTag.added⟩ :: diffLAux f (a :: as) bs
      if diffCost d2 < diffCost d1 then d2 else d1

/-- Modelled from the spec: `diffLines(originalText, newText)` of the
external diff library, at line granularity. -/
def diffLines (originalText newText : String) : List Change :=
  diffLAux ((splitLines originalText).length + (splitLines newText).length)
    (splitLines originalText) (splitLines newText)

/-- `PatchOp` from `client.ts`: an anchored remove or insert, the anchor
expressed in the coordinate space of the original document. -/
inductive PatchOp
  | remove (index count : Nat)
  | insert (index : Nat) (lines : List String)
deriving DecidableEq, Repr

/-- The anchor index of an operation (`op.index` in the source). -/
def PatchOp.opIndex : PatchOp → Nat
  | .remove i _ => i
  | .insert i _ => i

/-- The loop body of `buildOps` from `client.ts`, with the running cursor
over the original line sequence made explicit: an added run emits an
insert at the cursor and does not advance it; a removed run emits a remove
and advances it; an unchanged run only advances it.  Runs that split to
zero lines emit nothing. -/
def buildOpsAux : Nat → List Change → List PatchOp
  | _, [] => []
  | idx, part :: parts =>
    match part.tag with
    | ChangeTag.added =>
      (if part.value.length ≠ 0 then [PatchOp.insert idx part.value] else []) ++
        buildOpsAux idx parts
    | ChangeTag.removed =>
      (if part.value.length ≠ 0 then [PatchOp.remove idx part.value.length] else []) ++
        buildOpsAux (idx + part.value.length) parts
    | ChangeTag.unchanged => buildOpsAux (idx + part.value.length) parts

/-- `buildOps(originalText, newText)` from `client.ts`. -/
def buildOps (originalText newText : String) : List PatchOp :=
  buildOpsAux 0 (diffLines originalText newText)

/-- `OpGroup` from `client.ts`: the merged operations at one anchor
index. -/
structure OpGroup where
  removeCount : Nat
  insertLines : List String
deriving DecidableEq, Repr

/-- `groups.get(index)` on the association-list model of the JS `Map`
(first binding wins; `groupOps` keeps keys unique). -/
def getGroup? : List (Nat × OpGroup) → Nat → Option OpGroup
  | [], _ => none
  | (j, g) :: m, i => if j = i then some g else getGroup? m i

/-- `groups.set(index, group)` on the association-list model of the JS
`Map`: replace an existing binding in place, otherwise append, preserving
insertion order. -/
def setGroup : List (Nat × OpGroup) → Nat → OpGroup → List (Nat × OpGroup)
  | [], i, g => [(i, g)]
  | (j, h) :: m, i, g => if j = i then (i, g) :: m else (j, h) :: setGroup m i g

/-- Loop body of `groupOps`: fetch (or default) the group at the
operation's index, add the remove count or append the insert lines, and
store it back. -/
def groupStep (m : List (Nat × OpGroup)) (op : PatchOp) : List (Nat × OpGroup) :=
  let g := (getGroup? m op.opIndex).getD ⟨0, []⟩
  match op with
  | PatchOp.remove i c => setGroup m i ⟨g.removeCount + c, g.insertLines⟩
  | PatchOp.insert i v => setGroup m i ⟨g.removeCount, g.insertLines ++ v⟩

/-- `groupOps` from `client.ts`: merge all operations sharing an anchor
index into one `OpGroup`. -/
def groupOps (ops : List PatchOp) : List (Nat × OpGroup) :=
  ops.foldl groupStep []

/-- Insert a value into a descending-sorted list, keeping it descending. -/
def insertDesc (x : Nat) : List Nat → List Nat
  | [] => [x]
  | y :: ys => if y ≤ x then x :: y :: ys else y :: insertDesc x ys

/-- `[...groups.keys()].sort((a, b) => b - a)` from `applyOps`: sort the
anchor indices in descending order. -/
def sortDesc (l : List Nat) : List Nat :=
  l.foldr insertDesc []

/-- In-memory effect of `Remove{index, count}` on a line array: delete
`count` lines starting at `index`. -/
def removeSlice (arr : List String) (i count : Nat) : List String :=
  arr.take i ++ arr.drop (i + count)

/-- In-memory effect of `Insert{index, lines}` on a line array: insert the
lines immediately before position `index`. -/
def insertSlice (arr : List String) (i : Nat) (v : List String) : List String :=
  arr.take i ++ v ++ arr.drop i

/-- In-memory effect of one `OpGroup`, in the order `applyOps` executes a
group: first the removals (`if (group.removeCount > 0)`), then the
insertions (`if (group.insertLines.length > 0)`), both anchored at the
group's index. -/
def applyGroupModel (arr : List String) (i : Nat) (g : OpGroup) : List String :=
  let afterRemove := if g.removeCount > 0 then removeSlice arr i g.removeCount else arr
  if g.insertLines.length > 0 then insertSlice afterRemove i g.insertLines else afterRemove

/-- The in-memory line-array model of `applyOps` from `client.ts`: group
the operations, sort the anchor indices in descending order, and execute
each group at its anchor. -/
def applyOpsModel (arr : List String) (ops : List PatchOp) : List String :=
  let groups := groupOps ops
  let indices := sortDesc (groups.map Prod.fst)
  indices.foldl
    (fun acc i =>
      match getGroup? groups i with
      | some g => applyGroupModel acc i g
      | none => acc)
    arr

/-- The anchor indices of an operation list, in emission order. -/
def opIndices (ops : List PatchOp) : List Nat :=
  ops.map PatchOp.opIndex

/-- Total number of lines removed at anchor `i` by an operation list. -/
def rmSum (i : Nat) : List PatchOp → Nat
  | [] => 0
  | PatchOp.remove j c :: rest => (if j = i then c else 0) + rmSum i rest
  | PatchOp.insert _ _ :: rest => rmSum i rest

/-- Concatenation, in discovery order, of the lines inserted at anchor `i`
by an operation list. -/
def insConcat (i : Nat) : List PatchOp → List String
  | [] => []
  | PatchOp.remove _ _ :: rest => insConcat i rest
  | PatchOp.insert j v :: rest => (if j = i then v else []) ++ insConcat i rest

/-- The merged group at anchor `i` of an operation list, computed
directly. -/
def groupAt (i : Nat) (ops : List PatchOp) : OpGroup :=
  ⟨rmSum i ops, insConcat i ops⟩

/-- Unconditional in-memory effect of a group (remove, then insert). -/
def applyGroupTotal (arr : List String) (i : Nat) (g : OpGroup) : List String :=
  insertSlice (removeSlice arr i g.removeCount) i g.insertLines

/-- Reference form of the descending-order application used in proofs:
iterate the sorted anchor indices and apply the directly computed group at
each one. -/
def runDesc (arr : List String) (ops : List PatchOp) : List String :=
  (sortDesc ((groupOps ops).map Prod.fst)).foldl
    (fun acc i => applyGroupTotal acc i (groupAt i ops)) arr

/-- Prepend a pending insert at anchor `n` to an operation list (identity
when the pending lines are empty); bookkeeping device for the main
induction. -/
def pendOps (pend : List String) (n : Nat) (ops : List PatchOp) : List PatchOp :=
  if pend.isEmpty then ops else PatchOp.insert n pend :: ops

/-- The original-side line sequence described by a change list: the
concatenation of all runs not tagged `added`. -/
def origOf : List Change → List String
  | [] => []
  | c :: cs => (if c.tag = ChangeTag.added then [] else c.value) ++ origOf cs

/-- The target-side line sequence described by a change list: the
concatenation of all runs not tagged `removed`. -/
def targetOf : List Change → List String
  | [] => []
  | c :: cs => (if c.tag = ChangeTag.removed then [] else c.value) ++ targetOf cs

/-- Fold a list of anchor indices over a line array, applying at each
index the group a function assigns to it. -/
def runOver (arr : List String) (keyList : List Nat) (f : Nat → OpGroup) : List String :=
  keyList.foldl (fun acc i => applyGroupTotal acc i (f i)) arr

/-! ### The array state at the moment a group executes -/

/-- The in-memory line array at the moment the group anchored at `i`
executes in `applyOps`: the loop has run exactly the groups whose anchor
is above `i` (those earlier in the descending iteration order). -/
def applyOpsFrom (arr : List String) (ops : List PatchOp) (i : Nat) : List String :=
  ((sortDesc ((groupOps ops).map Prod.fst)).filter (fun j => decide (i < j))).foldl
    (fun acc j =>
      match getGroup? (groupOps ops) j with
      | some g => applyGroupModel acc j g
      | none => acc)
    arr

/-- Proof-side form of `applyOpsFrom` using the directly computed
groups. -/
def runDescFrom (arr : List String) (ops : List PatchOp) (i : Nat) : List String :=
  runOver arr ((sortDesc ((groupOps ops).map Prod.fst)).filter (fun j => decide (i < j)))
    (fun j => groupAt j ops)


/-! ### Control-flow model of `ScrapboxClient.patch` -/

/-- Failure kinds of a patch invocation (the `throw new Error(...)` sites
of `patch` in `client.ts`). -/
inductive PatchError
  | noPatchFound
  | patchApplyFailed
  | concurrentModification
  | verificationFailed
deriving DecidableEq, Repr

/-- Externally visible steps a `patch` call performs, in order:
`readJson` reads the canonical page JSON; `openPage` navigates a browser
tab to the page; `internalPatch` is the fast-path structured mutation;
`clickEditor` followed by `slowOps` is the simulated-input slow path;
`closePage` closes the tab. -/
inductive PatchAction
  | readJson
  | openPage
  | internalPatch
  | clickEditor
  | slowOps
  | closePage
deriving DecidableEq, Repr

/-- Actions that touch the live document (page navigation and both
mutation paths); pure reads and the tab close are excluded. -/
def isWriteAction : PatchAction → Bool
  | PatchAction.openPage => true
  | PatchAction.internalPatch => true
  | PatchAction.clickEditor => true
  | PatchAction.slowOps => true
  | _ => false

/-- One page snapshot as read from the JSON API: the line records and the
`updated` revision token (opaque, never interpreted; modelled as a
number). -/
structure PageSnapshot where
  lines : List LineInfo
  updated : Nat
deriving DecidableEq, Repr

/-- Outcome of the fast-path probe `tryInternalPatch`: the page scripting
bridge completed, the capability was missing (`window.scrapbox` lacks the
required functions, the probe returns `false`), or the page evaluation
threw (caught by the `try`/`catch`). -/
inductive FastProbe
  | ok
  | capabilityMissing
  | threw
deriving DecidableEq, Repr

/-- `tryInternalPatch` resolves to `true` only when the bridge completed;
a missing capability returns `false` and a thrown exception is caught and
turned into `false`. -/
def tryInternalPatchModel : FastProbe → Bool
  | FastProbe.ok => true
  | FastProbe.capabilityMissing => false
  | FastProbe.threw => false

/-- The states of the external world during one `patch` call: the
snapshot of the initial read, the snapshot a staleness re-read would see,
the snapshot the verification read would see, and the fast-path probe
outcome. -/
structure PatchWorld where
  first : PageSnapshot
  second : PageSnapshot
  final : PageSnapshot
  probe : FastProbe

/-- The external diff-library behaviour `patch` depends on: whether
`parsePatch` finds at least one patch in the diff text, and the result of
`applyPatch` on the original text under the chosen fuzz factor (`none`
models its `false` failure return). -/
structure PatchDeps where
  parseOk : Bool
  applyPatchFn : String → Option String

/-- The options of `patch` that steer its control flow. -/
structure PatchOpts where
  checkUpdated : Bool
  dryRun : Bool

/-- Control-flow model of `ScrapboxClient.patch` (`client.ts` lines
119-162): the result (`some text` for a dry run, `none` for a completed
mutation, or the failure kind) paired with the ordered trace of external
actions. -/
def patchModel (w : PatchWorld) (deps : PatchDeps) (opts : PatchOpts) :
    Except PatchError (Option String) × List PatchAction :=
  let originalText := linesToText w.first.lines
  if deps.parseOk = false then
    (Except.error PatchError.noPatchFound, [PatchAction.readJson])
  else
    match deps.applyPatchFn originalText with
    | none => (Except.error PatchError.patchApplyFailed, [PatchAction.readJson])
    | some newText =>
      if opts.dryRun then (Except.ok (some newText), [PatchAction.readJson])
      else
        let acts1 := if opts.checkUpdated then
            [PatchAction.readJson, PatchAction.readJson]
          else [PatchAction.readJson]
        if opts.checkUpdated ∧ w.second.updated ≠ w.first.updated then
          (Except.error PatchError.concurrentModification, acts1)
        else
          let ops := buildOps originalText newText
          if ops.length = 0 then (Except.ok none, acts1)
          else
            let internal := tryInternalPatchModel w.probe
            let acts2 := acts1 ++ [PatchAction.openPage] ++
              (if internal then [PatchAction.internalPatch]
                else [PatchAction.clickEditor, PatchAction.slowOps]) ++
              [PatchAction.closePage, PatchAction.readJson]
            if linesToText w.final.lines ≠ newText then
              (Except.error PatchError.verificationFailed, acts2)
            else (Except.ok none, acts2)

/-! ### Model of the fast path (`tryInternalPatch` page script) -/

/-- One structured mutation issued through the page scripting bridge:
`sb.Page.updateLine(text, index)` or `sb.Page.insertLine(text, index)`. -/
inductive FastAction
  | updateLine (text : String) (index : Nat)
  | insertLine (text : String) (index : Nat)
deriving DecidableEq, Repr

/-- The ordered list of bridge calls the fast path issues, computed from
the page's current line texts and the full target line list: update every
differing line of the overlapping range; then, if the target is longer,
insert the extra trailing lines, and if it is shorter, blank the excess
trailing lines from the bottom up (no line is ever deleted). -/
def internalPatchSteps (current lines : List String) : List FastAction :=
  (List.range (min current.length lines.length)).filterMap
    (fun i => if lines.getD i "" ≠ current.getD i "" then
        some (FastAction.updateLine (lines.getD i "") i) else none)
  ++ (if current.length < lines.length then
        (List.range (lines.length - current.length)).map
          (fun k => FastAction.insertLine (lines.getD (current.length + k) "")
            (current.length + k))
      else if lines.length < current.length then
        (List.range (current.length - lines.length)).map
          (fun k => FastAction.updateLine "" (current.length - 1 - k))
      else [])

/-- Effect of one bridge call on the line-text array: `updateLine`
replaces the text at an index, `insertLine` inserts a line before an
index. -/
def applyFastAction (arr : List String) : FastAction → List String
  | FastAction.updateLine t i => arr.set i t
  | FastAction.insertLine t i => insertSlice arr i [t]

/-- The line-text array after the fast path has issued all its bridge
calls. -/
def fastPatchResult (current lines : List String) : List String :=
  (internalPatchSteps current lines).foldl applyFastAction current


/-! ### Association-list lemmas for the `Map` model -/

theorem getGroup?_setGroup_self (m : List (Nat × OpGroup)) (i : Nat) (g : OpGroup) :
    getGroup? (setGroup m i g) i = some g := by
  induction m with
  | nil => simp [setGroup, getGroup?]
  | cons p m ih =>
    obtain ⟨j, h⟩ := p
    by_cases hj : j = i
    · subst hj
      simp [setGroup, getGroup?]
    · simp [setGroup, getGroup?, hj, ih]

theorem getGroup?_setGroup_ne (m : List (Nat × OpGroup)) (i j : Nat) (g : OpGroup)
    (hij : j ≠ i) : getGroup? (setGroup m j g) i = getGroup? m i := by
  induction m with
  | nil => simp [setGroup, getGroup?, hij]
  | cons p m ih =>
    obtain ⟨k, h⟩ := p
    by_cases hk : k = j
    · subst hk
      simp [setGroup, getGroup?, hij]
    · by_cases hki : k = i
      · subst hki
        simp [setGroup, getGroup?, hk]
      · simp [setGroup, getGroup?, hk, hki, ih]

theorem keys_setGroup (m : List (Nat × OpGroup)) (i : Nat) (g : OpGroup) :
    (setGroup m i g).map Prod.fst =
      if i ∈ m.map Prod.fst then m.map Prod.fst else m.map Prod.fst ++ [i] := by
  induction m with
  | nil => simp [setGroup]
  | cons p m ih =>
    obtain ⟨j, h⟩ := p
    by_cases hj : j = i
    · subst hj
      simp [setGroup]
    · have hji : ¬ i = j := fun hc => hj hc.symm
      by_cases hi : i ∈ m.map Prod.fst
      · simp [setGroup, hj, hji, hi, ih]
      · simp [setGroup, hj, hji, hi, ih]

theorem getGroup?_eq_none_iff (m : List (Nat × OpGroup)) (i : Nat) :
    getGroup? m i = none ↔ i ∉ m.map Prod.fst := by
  induction m with
  | nil => simp [getGroup?]
  | cons p m ih =>
    obtain ⟨j, h⟩ := p
    by_cases hj : j = i
    · subst hj
      simp [getGroup?]
    · have hji : ¬ i = j := fun hc => hj hc.symm
      simp [getGroup?, hj, hji, ih]

/-- Pointwise description of `groupOps`: a single binding per anchor
holding the summed remove count and the concatenated insert lines. -/
theorem getGroup?_foldl (ops : List PatchOp) : ∀ (m : List (Nat × OpGroup)) (i : Nat),
    getGroup? (ops.foldl groupStep m) i =
      match getGroup? m i with
      | some g => some ⟨g.removeCount + rmSum i ops, g.insertLines ++ insConcat i ops⟩
      | none => if i ∈ opIndices ops then some (groupAt i ops) else none := by
  induction ops with
  | nil =>
    intro m i
    cases hg : getGroup? m i <;> simp [rmSum, insConcat, opIndices, hg]
  | cons op rest ih =>
    intro m i
    have hstep : (op :: rest).foldl groupStep m = rest.foldl groupStep (groupStep m op) :=
      rfl
    rw [hstep, ih]
    cases op with
    | remove j c =>
      by_cases hji : j = i
      · subst hji
        rw [show groupStep m (PatchOp.remove j c) =
              setGroup m j ⟨((getGroup? m j).getD ⟨0, []⟩).removeCount + c,
                ((getGroup? m j).getD ⟨0, []⟩).insertLines⟩ from rfl]
        rw [getGroup?_setGroup_self]
        cases hg : getGroup? m j <;>
          simp [hg, groupAt, rmSum, insConcat, opIndices, PatchOp.opIndex, Nat.add_assoc]
      · rw [show groupStep m (PatchOp.remove j c) =
              setGroup m j ⟨((getGroup? m j).getD ⟨0, []⟩).removeCount + c,
                ((getGroup? m j).getD ⟨0, []⟩).insertLines⟩ from rfl]
        rw [getGroup?_setGroup_ne m i j _ hji]
        have hij : ¬ i = j := fun hc => hji hc.symm
        cases hg : getGroup? m i <;>
          simp [hg, groupAt, rmSum, insConcat, opIndices, PatchOp.opIndex, hji, hij]
    | insert j v =>
      by_cases hji : j = i
      · subst hji
        rw [show groupStep m (PatchOp.insert j v) =
              setGroup m j ⟨((getGroup? m j).getD ⟨0, []⟩).removeCount,
                ((getGroup? m j).getD ⟨0, []⟩).insertLines ++ v⟩ from rfl]
        rw [getGroup?_setGroup_self]
        cases hg : getGroup? m j <;>
          simp [hg, groupAt, rmSum, insConcat, opIndices, PatchOp.opIndex, List.append_assoc]
      · rw [show groupStep m (PatchOp.insert j v) =
              setGroup m j ⟨((getGroup? m j).getD ⟨0, []⟩).removeCount,
                ((getGroup? m j).getD ⟨0, []⟩).insertLines ++ v⟩ from rfl]
        rw [getGroup?_setGroup_ne m i j _ hji]
        have hij : ¬ i = j := fun hc => hji hc.symm
        cases hg : getGroup? m i <;>
          simp [hg, groupAt, rmSum, insConcat, opIndices, PatchOp.opIndex, hji, hij]

theorem getGroup?_groupOps (ops : List PatchOp) (i : Nat) :
    getGroup? (groupOps ops) i =
      if i ∈ opIndices ops then some (groupAt i ops) else none := by
  have h := getGroup?_foldl ops [] i
  simpa [groupOps, getGroup?] using h

theorem mem_keys_groupOps (ops : List PatchOp) (i : Nat) :
    i ∈ (groupOps ops).map Prod.fst ↔ i ∈ opIndices ops := by
  constructor
  · intro h
    by_contra hmem
    have hnone : getGroup? (groupOps ops) i = none := by
      rw [getGroup?_groupOps, if_neg hmem]
    exact ((getGroup?_eq_none_iff _ _).mp hnone) h
  · intro h
    by_contra hk
    have hnone := (getGroup?_eq_none_iff (groupOps ops) i).mpr hk
    rw [getGroup?_groupOps, if_pos h] at hnone
    exact Option.noConfusion hnone

theorem keys_groupOps_nodup (ops : List PatchOp) :
    ((groupOps ops).map Prod.fst).Nodup := by
  suffices h : ∀ m : List (Nat × OpGroup), (m.map Prod.fst).Nodup →
      ((ops.foldl groupStep m).map Prod.fst).Nodup by
    exact h [] (by simp)
  induction ops with
  | nil => intro m hm; exact hm
  | cons op rest ih =>
    intro m hm
    have hstep : (op :: rest).foldl groupStep m = rest.foldl groupStep (groupStep m op) :=
      rfl
    rw [hstep]
    apply ih
    have hset : ∀ j g, ((setGroup m j g).map Prod.fst).Nodup := by
      intro j g
      rw [keys_setGroup]
      by_cases hj : j ∈ m.map Prod.fst
      · simpa [hj] using hm
      · simp only [hj, if_false]
        simpa [List.nodup_append, hj] using hm
    cases op with
    | remove j c => exact hset j _
    | insert j v => exact hset j _

/-! ### Sorting lemmas -/

theorem insertDesc_perm (x : Nat) (l : List Nat) : List.Perm (insertDesc x l) (x :: l) := by
  induction l with
  | nil => simp [insertDesc]
  | cons y ys ih =>
    by_cases hy : y ≤ x
    · simp [insertDesc, hy]
    · rw [show insertDesc x (y :: ys) = y :: insertDesc x ys by simp [insertDesc, hy]]
      exact (ih.cons y).trans (List.Perm.swap x y ys)

theorem sortDesc_perm (l : List Nat) : List.Perm (sortDesc l) l := by
  induction l with
  | nil => simp [sortDesc]
  | cons a l ih =>
    have : sortDesc (a :: l) = insertDesc a (sortDesc l) := rfl
    rw [this]
    exact (insertDesc_perm a (sortDesc l)).trans (ih.cons a)

theorem mem_sortDesc (l : List Nat) (x : Nat) : x ∈ sortDesc l ↔ x ∈ l :=
  (sortDesc_perm l).mem_iff

theorem sorted_insertDesc (x : Nat) (l : List Nat) (h : l.Sorted (· ≥ ·)) :
    (insertDesc x l).Sorted (· ≥ ·) := by
  induction l with
  | nil => simp [insertDesc]
  | cons y ys ih =>
    rw [List.sorted_cons] at h
    by_cases hy : y ≤ x
    · rw [show insertDesc x (y :: ys) = x :: y :: ys by simp [insertDesc, hy]]
      rw [List.sorted_cons]
      refine ⟨?_, List.sorted_cons.mpr h⟩
      intro b hb
      rcases List.mem_cons.mp hb with hb | hb
      · exact hb ▸ hy
      · exact le_trans (h.1 b hb) hy
    · rw [show insertDesc x (y :: ys) = y :: insertDesc x ys by simp [insertDesc, hy]]
      rw [List.sorted_cons]
      refine ⟨?_, ih h.2⟩
      intro b hb
      have hb' : b ∈ x :: ys := (insertDesc_perm x ys).mem_iff.mp hb
      rcases List.mem_cons.mp hb' with hb' | hb'
      · exact hb' ▸ le_of_not_le hy
      · exact h.1 b hb'

theorem sorted_sortDesc (l : List Nat) : (sortDesc l).Sorted (· ≥ ·) := by
  induction l with
  | nil => simp [sortDesc]
  | cons a l ih => exact sorted_insertDesc a (sortDesc l) ih

theorem sortDesc_eq_of_mem_iff (l l' : List Nat) (h : l.Nodup) (h' : l'.Nodup)
    (hm : ∀ i, i ∈ l ↔ i ∈ l') : sortDesc l = sortDesc l' := by
  have hperm : List.Perm (sortDesc l) (sortDesc l') :=
    ((sortDesc_perm l).trans ((List.perm_ext_iff_of_nodup h h').mpr hm)).trans
      (sortDesc_perm l').symm
  exact List.eq_of_perm_of_sorted hperm (sorted_sortDesc l) (sorted_sortDesc l')

theorem insertDesc_eq_append (x : Nat) (l : List Nat) (h : ∀ y ∈ l, x < y) :
    insertDesc x l = l ++ [x] := by
  induction l with
  | nil => simp [insertDesc]
  | cons y ys ih =>
    have hy : ¬ y ≤ x := not_le_of_lt (h y (by simp))
    rw [show insertDesc x (y :: ys) = y :: insertDesc x ys by simp [insertDesc, hy]]
    rw [ih fun z hz => h z (List.mem_cons_of_mem y hz)]
    rfl

/-! ### Slice lemmas -/

theorem removeSlice_zero (arr : List String) (i : Nat) : removeSlice arr i 0 = arr := by
  simp [removeSlice]

theorem insertSlice_nil (arr : List String) (i : Nat) : insertSlice arr i [] = arr := by
  simp [insertSlice]

theorem insertSlice_at_len (p t v : List String) :
    insertSlice (p ++ t) p.length v = p ++ v ++ t := by
  simp [insertSlice, List.append_assoc]

theorem removeSlice_at_len (p v t : List String) :
    removeSlice (p ++ v ++ t) p.length v.length = p ++ t := by
  unfold removeSlice
  rw [List.append_assoc]
  rw [List.take_left]
  rw [show p ++ (v ++ t) = (p ++ v) ++ t from (List.append_assoc p v t).symm]
  rw [show p.length + v.length = (p ++ v).length by simp]
  rw [List.drop_left]

theorem applyGroupModel_eq_total (arr : List String) (i : Nat) (g : OpGroup) :
    applyGroupModel arr i g = applyGroupTotal arr i g := by
  unfold applyGroupModel applyGroupTotal
  by_cases h1 : g.removeCount > 0
  · by_cases h2 : g.insertLines.length > 0
    · simp [h1, h2]
    · have hg : g.insertLines = [] := List.length_eq_zero.mp (Nat.eq_zero_of_not_pos h2)
      simp [h1, h2, hg, insertSlice_nil]
  · have hr : g.removeCount = 0 := Nat.eq_zero_of_not_pos h1
    by_cases h2 : g.insertLines.length > 0
    · simp [h1, h2, hr, removeSlice_zero]
    · have hg : g.insertLines = [] := List.length_eq_zero.mp (Nat.eq_zero_of_not_pos h2)
      simp [h1, h2, hr, hg, removeSlice_zero, insertSlice_nil]

/-! ### Fold helpers -/

theorem runOver_congr (arr : List String) (keyList : List Nat) (f g : Nat → OpGroup)
    (h : ∀ i ∈ keyList, f i = g i) : runOver arr keyList f = runOver arr keyList g := by
  induction keyList generalizing arr with
  | nil => rfl
  | cons k ks ih =>
    unfold runOver
    simp only [List.foldl_cons]
    rw [h k (by simp)]
    exact ih _ fun i hi => h i (List.mem_cons_of_mem k hi)

theorem runOver_append (arr : List String) (k₁ k₂ : List Nat) (f : Nat → OpGroup) :
    runOver arr (k₁ ++ k₂) f = runOver (runOver arr k₁ f) k₂ f := by
  unfold runOver
  rw [List.foldl_append]

theorem runDesc_eq_runOver (arr : List String) (ops : List PatchOp) :
    runDesc arr ops =
      runOver arr (sortDesc ((groupOps ops).map Prod.fst)) (fun i => groupAt i ops) := rfl

theorem foldl_congr_mem {α β : Type} (l : List β) (f g : α → β → α) (a : α)
    (h : ∀ acc : α, ∀ b ∈ l, f acc b = g acc b) : l.foldl f a = l.foldl g a := by
  induction l generalizing a with
  | nil => rfl
  | cons b bs ih =>
    simp only [List.foldl_cons]
    rw [h a b (by simp)]
    exact ih _ fun acc c hc => h acc c (List.mem_cons_of_mem b hc)

theorem applyOpsModel_eq_runDesc (arr : List String) (ops : List PatchOp) :
    applyOpsModel arr ops = runDesc arr ops := by
  unfold applyOpsModel runDesc
  apply foldl_congr_mem
  intro acc i hi
  have hik : i ∈ (groupOps ops).map Prod.fst := (mem_sortDesc _ _).mp hi
  have hio : i ∈ opIndices ops := (mem_keys_groupOps ops i).mp hik
  rw [getGroup?_groupOps, if_pos hio]
  exact applyGroupModel_eq_total acc i (groupAt i ops)

/-! ### Structure of the planner output -/

theorem opIndices_append (l₁ l₂ : List PatchOp) :
    opIndices (l₁ ++ l₂) = opIndices l₁ ++ opIndices l₂ := by
  simp [opIndices]

/-- Every operation emitted by `buildOpsAux` is anchored at or above the
running cursor. -/
theorem le_of_mem_opIndices_buildOpsAux (cs : List Change) :
    ∀ (n i : Nat), i ∈ opIndices (buildOpsAux n cs) → n ≤ i := by
  induction cs with
  | nil => intro n i h; simp [buildOpsAux, opIndices] at h
  | cons part parts ih =>
    intro n i h
    obtain ⟨v, tag⟩ := part
    cases tag with
    | added =>
      simp only [buildOpsAux] at h
      rw [opIndices_append] at h
      rcases List.mem_append.mp h with h | h
      · by_cases hv : v.length ≠ 0
        · rw [if_pos hv] at h
          simp [opIndices, PatchOp.opIndex] at h
          omega
        · rw [if_neg hv] at h
          simp [opIndices] at h
      · exact ih n i h
    | removed =>
      simp only [buildOpsAux] at h
      rw [opIndices_append] at h
      rcases List.mem_append.mp h with h | h
      · by_cases hv : v.length ≠ 0
        · rw [if_pos hv] at h
          simp [opIndices, PatchOp.opIndex] at h
          omega
        · rw [if_neg hv] at h
          simp [opIndices] at h
      · exact le_trans (Nat.le_add_right n v.length) (ih (n + v.length) i h)
    | unchanged =>
      simp only [buildOpsAux] at h
      exact le_trans (Nat.le_add_right n v.length) (ih (n + v.length) i h)

theorem rmSum_eq_zero_of_not_mem (i : Nat) (ops : List PatchOp)
    (h : i ∉ opIndices ops) : rmSum i ops = 0 := by
  induction ops with
  | nil => rfl
  | cons op rest ih =>
    cases op with
    | remove j c =>
      simp only [opIndices, List.map_cons, List.mem_cons, not_or, PatchOp.opIndex] at h
      have hj : ¬ j = i := fun hc => h.1 hc.symm
      simp only [rmSum, hj, if_false]
      rw [ih (by simpa [opIndices] using h.2)]
    | insert j v =>
      simp only [opIndices, List.map_cons, List.mem_cons, not_or, PatchOp.opIndex] at h
      simp only [rmSum]
      exact ih (by simpa [opIndices] using h.2)

theorem insConcat_eq_nil_of_not_mem (i : Nat) (ops : List PatchOp)
    (h : i ∉ opIndices ops) : insConcat i ops = [] := by
  induction ops with
  | nil => rfl
  | cons op rest ih =>
    cases op with
    | remove j c =>
      simp only [opIndices, List.map_cons, List.mem_cons, not_or, PatchOp.opIndex] at h
      simp only [insConcat]
      exact ih (by simpa [opIndices] using h.2)
    | insert j v =>
      simp only [opIndices, List.map_cons, List.mem_cons, not_or, PatchOp.opIndex] at h
      have hj : ¬ j = i := fun hc => h.1 hc.symm
      simp only [insConcat, hj, if_false]
      rw [ih (by simpa [opIndices] using h.2)]
      simp

theorem groupAt_insert_cons_ne (i n : Nat) (v : List String) (ops : List PatchOp)
    (h : ¬ n = i) : groupAt i (PatchOp.insert n v :: ops) = groupAt i ops := by
  simp [groupAt, rmSum, insConcat, h]

theorem groupAt_remove_cons_ne (i n c : Nat) (ops : List PatchOp)
    (h : ¬ n = i) : groupAt i (PatchOp.remove n c :: ops) = groupAt i ops := by
  simp [groupAt, rmSum, insConcat, h]

theorem groupAt_pendOps_ne (i n : Nat) (pend : List String) (ops : List PatchOp)
    (h : ¬ n = i) : groupAt i (pendOps pend n ops) = groupAt i ops := by
  unfold pendOps
  split
  · rfl
  · exact groupAt_insert_cons_ne i n pend ops h

/-! ### Decomposition of the descending-order run -/

theorem sortKeys_min (ops rest : List PatchOp) (n : Nat)
    (hmem : ∀ i, i ∈ opIndices ops ↔ i = n ∨ i ∈ opIndices rest)
    (hgt : ∀ i ∈ opIndices rest, n < i) :
    sortDesc ((groupOps ops).map Prod.fst) =
      sortDesc ((groupOps rest).map Prod.fst) ++ [n] := by
  have hnotin : n ∉ (groupOps rest).map Prod.fst := by
    intro hc
    exact lt_irrefl n (hgt n ((mem_keys_groupOps rest n).mp hc))
  have h1 : sortDesc ((groupOps ops).map Prod.fst) =
      sortDesc (n :: (groupOps rest).map Prod.fst) := by
    apply sortDesc_eq_of_mem_iff
    · exact keys_groupOps_nodup ops
    · exact List.nodup_cons.mpr ⟨hnotin, keys_groupOps_nodup rest⟩
    · intro i
      rw [mem_keys_groupOps, hmem i, List.mem_cons, mem_keys_groupOps]
  rw [h1]
  rw [show sortDesc (n :: (groupOps rest).map Prod.fst) =
        insertDesc n (sortDesc ((groupOps rest).map Prod.fst)) from rfl]
  apply insertDesc_eq_append
  intro y hy
  exact hgt y ((mem_keys_groupOps rest y).mp ((mem_sortDesc _ _).mp hy))

theorem runOver_single (arr : List String) (k : Nat) (f : Nat → OpGroup) :
    runOver arr [k] f = applyGroupTotal arr k (f k) := rfl

theorem runDesc_nil (arr : List String) : runDesc arr [] = arr := rfl

/-- Peeling the minimum anchor: when `n` is the strictly smallest anchor
of `ops` and the groups of `ops` and `rest` agree away from `n`, the
descending run over `ops` is the run over `rest` followed by the group at
`n`. -/
theorem runDesc_min_step (ops rest : List PatchOp) (arr : List String) (n : Nat)
    (hmem : ∀ i, i ∈ opIndices ops ↔ i = n ∨ i ∈ opIndices rest)
    (hgt : ∀ i ∈ opIndices rest, n < i)
    (hcong : ∀ i, ¬ n = i → groupAt i ops = groupAt i rest) :
    runDesc arr ops = applyGroupTotal (runDesc arr rest) n (groupAt n ops) := by
  rw [runDesc_eq_runOver, sortKeys_min ops rest n hmem hgt, runOver_append, runOver_single]
  congr 1
  rw [runDesc_eq_runOver]
  apply runOver_congr
  intro i hi
  have hni : ¬ n = i := by
    have := hgt i ((mem_keys_groupOps rest i).mp ((mem_sortDesc _ _).mp hi))
    omega
  exact hcong i hni

/-- Two operation lists with the same anchor set and the same merged
groups run identically. -/
theorem runDesc_congr (ops₁ ops₂ : List PatchOp) (arr : List String)
    (hmem : ∀ i, i ∈ opIndices ops₁ ↔ i ∈ opIndices ops₂)
    (hg : ∀ i, groupAt i ops₁ = groupAt i ops₂) :
    runDesc arr ops₁ = runDesc arr ops₂ := by
  rw [runDesc_eq_runOver, runDesc_eq_runOver]
  rw [sortDesc_eq_of_mem_iff ((groupOps ops₁).map Prod.fst) ((groupOps ops₂).map Prod.fst)
    (keys_groupOps_nodup _) (keys_groupOps_nodup _)
    (fun i => by rw [mem_keys_groupOps, mem_keys_groupOps]; exact hmem i)]
  exact runOver_congr _ _ _ _ (fun i _ => hg i)

theorem runDesc_single_insert (arr : List String) (n : Nat) (v : List String) :
    runDesc arr [PatchOp.insert n v] = insertSlice arr n v := by
  have hg : groupOps [PatchOp.insert n v] = [(n, ⟨0, v⟩)] := by
    simp [groupOps, groupStep, getGroup?, setGroup, PatchOp.opIndex]
  rw [runDesc_eq_runOver, hg]
  rw [show ([(n, (⟨0, v⟩ : OpGroup))].map Prod.fst) = [n] from rfl]
  rw [show sortDesc [n] = [n] from rfl, runOver_single]
  have hga : groupAt n [PatchOp.insert n v] = ⟨0, v⟩ := by
    simp [groupAt, rmSum, insConcat]
  rw [hga]
  show insertSlice (removeSlice arr n 0) n v = insertSlice arr n v
  rw [removeSlice_zero]

/-! ### Equation lemmas for the planner -/

theorem pendOps_nil (n : Nat) (ops : List PatchOp) : pendOps [] n ops = ops := rfl

theorem pendOps_cons (p : String) (ps : List String) (n : Nat) (ops : List PatchOp) :
    pendOps (p :: ps) n ops = PatchOp.insert n (p :: ps) :: ops := rfl

theorem pendOps_of_ne_nil (pend : List String) (hp : pend ≠ []) (n : Nat)
    (ops : List PatchOp) : pendOps pend n ops = PatchOp.insert n pend :: ops := by
  cases pend with
  | nil => exact absurd rfl hp
  | cons p ps => rfl

theorem buildOpsAux_unchanged (n : Nat) (v : List String) (parts : List Change) :
    buildOpsAux n (⟨v, ChangeTag.unchanged⟩ :: parts) = buildOpsAux (n + v.length) parts := rfl

theorem buildOpsAux_removed (n : Nat) (v : List String) (parts : List Change) (hv : v ≠ []) :
    buildOpsAux n (⟨v, ChangeTag.removed⟩ :: parts) =
      PatchOp.remove n v.length :: buildOpsAux (n + v.length) parts := by
  simp only [buildOpsAux]
  rw [if_pos fun hc => hv (List.length_eq_zero.mp hc)]
  rfl

theorem buildOpsAux_added (n : Nat) (v : List String) (parts : List Change) (hv : v ≠ []) :
    buildOpsAux n (⟨v, ChangeTag.added⟩ :: parts) =
      PatchOp.insert n v :: buildOpsAux n parts := by
  simp only [buildOpsAux]
  rw [if_pos fun hc => hv (List.length_eq_zero.mp hc)]
  rfl

theorem buildOpsAux_removed_nil (n : Nat) (parts : List Change) :
    buildOpsAux n (⟨[], ChangeTag.removed⟩ :: parts) = buildOpsAux n parts := by
  simp [buildOpsAux]

theorem buildOpsAux_added_nil (n : Nat) (parts : List Change) :
    buildOpsAux n (⟨[], ChangeTag.added⟩ :: parts) = buildOpsAux n parts := by
  simp [buildOpsAux]

theorem origOf_cons_unchanged (v : List String) (parts : List Change) :
    origOf (⟨v, ChangeTag.unchanged⟩ :: parts) = v ++ origOf parts := by
  simp [origOf]

theorem origOf_cons_removed (v : List String) (parts : List Change) :
    origOf (⟨v, ChangeTag.removed⟩ :: parts) = v ++ origOf parts := by
  simp [origOf]

theorem origOf_cons_added (v : List String) (parts : List Change) :
    origOf (⟨v, ChangeTag.added⟩ :: parts) = origOf parts := by
  simp [origOf]

theorem targetOf_cons_unchanged (v : List String) (parts : List Change) :
    targetOf (⟨v, ChangeTag.unchanged⟩ :: parts) = v ++ targetOf parts := by
  simp [targetOf]

theorem targetOf_cons_removed (v : List String) (parts : List Change) :
    targetOf (⟨v, ChangeTag.removed⟩ :: parts) = targetOf parts := by
  simp [targetOf]

theorem targetOf_cons_added (v : List String) (parts : List Change) :
    targetOf (⟨v, ChangeTag.added⟩ :: parts) = v ++ targetOf parts := by
  simp [targetOf]

/-! ### The master planning theorem -/

/-- Running the grouped operations of `buildOpsAux n cs` in descending
anchor order over `front ++ origOf cs` (where `front` is the already
aligned prefix of length `n`), with `pend` lines still waiting to be
inserted at the cursor `n`, produces `front ++ pend ++ targetOf cs`. -/
theorem runDesc_master (cs : List Change) : ∀ (n : Nat) (pend front : List String),
    front.length = n →
    runDesc (front ++ origOf cs) (pendOps pend n (buildOpsAux n cs)) =
      front ++ pend ++ targetOf cs := by
  induction cs with
  | nil =>
    intro n pend front hn
    cases pend with
    | nil => simp [buildOpsAux, pendOps, origOf, targetOf, runDesc_nil]
    | cons p ps =>
      rw [show buildOpsAux n ([] : List Change) = [] from rfl]
      rw [pendOps_cons, runDesc_single_insert]
      rw [show origOf ([] : List Change) = [] from rfl,
        show targetOf ([] : List Change) = [] from rfl]
      rw [← hn]
      exact insertSlice_at_len front [] (p :: ps)
  | cons part parts ih =>
    intro n pend front hn
    obtain ⟨v, tag⟩ := part
    cases tag with
    | unchanged =>
      by_cases hv : v = []
      · subst hv
        rw [buildOpsAux_unchanged, origOf_cons_unchanged, targetOf_cons_unchanged]
        simpa using ih n pend front hn
      · cases pend with
        | nil =>
          rw [pendOps_nil, buildOpsAux_unchanged, origOf_cons_unchanged,
            targetOf_cons_unchanged]
          rw [show front ++ (v ++ origOf parts) = (front ++ v) ++ origOf parts from
            (List.append_assoc front v (origOf parts)).symm]
          have h2 := ih (n + v.length) [] (front ++ v) (by simp [hn])
          rw [pendOps_nil] at h2
          rw [h2]
          simp
        | cons p ps =>
          rw [buildOpsAux_unchanged, pendOps_cons]
          have hgt : ∀ i ∈ opIndices (buildOpsAux (n + v.length) parts), n < i := by
            intro i hi
            have h1 := le_of_mem_opIndices_buildOpsAux parts (n + v.length) i hi
            have h2 : 0 < v.length := List.length_pos.mpr hv
            omega
          have hnr : n ∉ opIndices (buildOpsAux (n + v.length) parts) :=
            fun hc => lt_irrefl n (hgt n hc)
          rw [runDesc_min_step (PatchOp.insert n (p :: ps) :: buildOpsAux (n + v.length) parts)
            (buildOpsAux (n + v.length) parts) _ n
            (by intro i; simp [opIndices, PatchOp.opIndex])
            hgt
            (fun i hni => groupAt_insert_cons_ne i n (p :: ps) _ hni)]
          have hgn : groupAt n (PatchOp.insert n (p :: ps) ::
              buildOpsAux (n + v.length) parts) = ⟨0, p :: ps⟩ := by
            simp [groupAt, rmSum, insConcat, rmSum_eq_zero_of_not_mem n _ hnr,
              insConcat_eq_nil_of_not_mem n _ hnr]
          rw [hgn, origOf_cons_unchanged]
          rw [show front ++ (v ++ origOf parts) = (front ++ v) ++ origOf parts from
            (List.append_assoc front v (origOf parts)).symm]
          have h2 := ih (n + v.length) [] (front ++ v) (by simp [hn])
          rw [pendOps_nil] at h2
          rw [h2]
          simp only [applyGroupTotal]
          rw [show (front ++ v) ++ [] ++ targetOf parts = front ++ (v ++ targetOf parts)
            by simp]
          rw [← hn, removeSlice_zero, insertSlice_at_len, targetOf_cons_unchanged]
    | removed =>
      by_cases hv : v = []
      · subst hv
        rw [buildOpsAux_removed_nil, origOf_cons_removed, targetOf_cons_removed]
        simpa using ih n pend front hn
      · rw [buildOpsAux_removed n v parts hv]
        have hgt : ∀ i ∈ opIndices (buildOpsAux (n + v.length) parts), n < i := by
          intro i hi
          have h1 := le_of_mem_opIndices_buildOpsAux parts (n + v.length) i hi
          have h2 : 0 < v.length := List.length_pos.mpr hv
          omega
        have hnr : n ∉ opIndices (buildOpsAux (n + v.length) parts) :=
          fun hc => lt_irrefl n (hgt n hc)
        have hmem : ∀ i, i ∈ opIndices (pendOps pend n (PatchOp.remove n v.length ::
            buildOpsAux (n + v.length) parts)) ↔
            i = n ∨ i ∈ opIndices (buildOpsAux (n + v.length) parts) := by
          intro i
          cases pend with
          | nil => rw [pendOps_nil]; simp [opIndices, PatchOp.opIndex]
          | cons p ps =>
            rw [pendOps_cons]
            simp only [opIndices, List.map_cons, List.mem_cons, PatchOp.opIndex]
            constructor
            · rintro (h | h | h)
              · exact Or.inl h
              · exact Or.inl h
              · exact Or.inr h
            · rintro (h | h)
              · exact Or.inl h
              · exact Or.inr (Or.inr h)
        have hcong : ∀ i, ¬ n = i →
            groupAt i (pendOps pend n (PatchOp.remove n v.length ::
              buildOpsAux (n + v.length) parts)) =
              groupAt i (buildOpsAux (n + v.length) parts) := by
          intro i hni
          rw [groupAt_pendOps_ne i n pend _ hni]
          exact groupAt_remove_cons_ne i n v.length _ hni
        rw [runDesc_min_step _ (buildOpsAux (n + v.length) parts) _ n hmem hgt hcong]
        have hgn : groupAt n (pendOps pend n (PatchOp.remove n v.length ::
            buildOpsAux (n + v.length) parts)) = ⟨v.length, pend⟩ := by
          cases pend with
          | nil =>
            rw [pendOps_nil]
            simp [groupAt, rmSum, insConcat, rmSum_eq_zero_of_not_mem n _ hnr,
              insConcat_eq_nil_of_not_mem n _ hnr]
          | cons p ps =>
            rw [pendOps_cons]
            simp [groupAt, rmSum, insConcat, rmSum_eq_zero_of_not_mem n _ hnr,
              insConcat_eq_nil_of_not_mem n _ hnr]
        rw [hgn, origOf_cons_removed]
        rw [show front ++ (v ++ origOf parts) = (front ++ v) ++ origOf parts from
          (List.append_assoc front v (origOf parts)).symm]
        have h2 := ih (n + v.length) [] (front ++ v) (by simp [hn])
        rw [pendOps_nil] at h2
        rw [h2]
        simp only [applyGroupTotal]
        rw [show (front ++ v) ++ [] ++ targetOf parts = front ++ v ++ targetOf parts by simp]
        rw [← hn, removeSlice_at_len, insertSlice_at_len, targetOf_cons_removed]
    | added =>
      by_cases hv : v = []
      · subst hv
        rw [buildOpsAux_added_nil, origOf_cons_added, targetOf_cons_added]
        simpa using ih n pend front hn
      · rw [buildOpsAux_added n v parts hv]
        have hvv : pend ++ v ≠ [] := fun hc => hv (List.append_eq_nil.mp hc).2
        have hrw : runDesc (front ++ origOf (⟨v, ChangeTag.added⟩ :: parts))
            (pendOps pend n (PatchOp.insert n v :: buildOpsAux n parts)) =
            runDesc (front ++ origOf (⟨v, ChangeTag.added⟩ :: parts))
            (pendOps (pend ++ v) n (buildOpsAux n parts)) := by
          cases pend with
          | nil => rw [pendOps_nil, List.nil_append, pendOps_of_ne_nil v hv]
          | cons p ps =>
            rw [pendOps_cons, pendOps_of_ne_nil _ hvv]
            apply runDesc_congr
            · intro i
              simp only [opIndices, List.map_cons, List.mem_cons, PatchOp.opIndex]
              constructor
              · rintro (h | h | h)
                · exact Or.inl h
                · exact Or.inl h
                · exact Or.inr h
              · rintro (h | h)
                · exact Or.inl h
                · exact Or.inr (Or.inr h)
            · intro i
              by_cases hni : n = i
              · subst hni
                simp [groupAt, rmSum, insConcat, List.append_assoc]
              · rw [groupAt_insert_cons_ne i n _ _ hni, groupAt_insert_cons_ne i n _ _ hni,
                  groupAt_insert_cons_ne i n _ _ hni]
        rw [hrw, origOf_cons_added]
        rw [ih n (pend ++ v) front hn]
        rw [targetOf_cons_added]
        simp [List.append_assoc]

/-! ### The diff model describes both texts -/

theorem origOf_append (l₁ l₂ : List Change) :
    origOf (l₁ ++ l₂) = origOf l₁ ++ origOf l₂ := by
  induction l₁ with
  | nil => simp [origOf]
  | cons c cs ih => simp [origOf, ih, List.append_assoc]

theorem targetOf_append (l₁ l₂ : List Change) :
    targetOf (l₁ ++ l₂) = targetOf l₁ ++ targetOf l₂ := by
  induction l₁ with
  | nil => simp [targetOf]
  | cons c cs ih => simp [targetOf, ih, List.append_assoc]

/-- The change list computed by the diff model is a faithful edit script:
its non-added runs concatenate to the old lines and its non-removed runs
concatenate to the new lines. -/
theorem diffLAux_orig_target (fuel : Nat) : ∀ as bs : List String,
    origOf (diffLAux fuel as bs) = as ∧ targetOf (diffLAux fuel as bs) = bs := by
  induction fuel with
  | zero =>
    intro as bs
    show origOf ((if as = [] then [] else [⟨as, ChangeTag.removed⟩]) ++
        (if bs = [] then [] else [⟨bs, ChangeTag.added⟩])) = as ∧
      targetOf ((if as = [] then [] else [⟨as, ChangeTag.removed⟩]) ++
        (if bs = [] then [] else [⟨bs, ChangeTag.added⟩])) = bs
    rw [origOf_append, targetOf_append]
    by_cases ha : as = [] <;> by_cases hb : bs = [] <;>
      simp [ha, hb, origOf, targetOf]
  | succ f ih =>
    intro as bs
    match as, bs with
    | [], [] => simp [diffLAux, origOf, targetOf]
    | [], b :: bs => simp [diffLAux, origOf, targetOf]
    | a :: as, [] => simp [diffLAux, origOf, targetOf]
    | a :: as, b :: bs =>
      by_cases hab : a = b
      · subst hab
        rw [show diffLAux (f + 1) (a :: as) (a :: bs) =
            ⟨[a], ChangeTag.unchanged⟩ :: diffLAux f as bs by simp [diffLAux]]
        have h := ih as bs
        constructor
        · simp [origOf, h.1]
        · simp [targetOf, h.2]
      · rw [show diffLAux (f + 1) (a :: as) (b :: bs) =
            (if diffCost (⟨[b], ChangeTag.added⟩ :: diffLAux f (a :: as) bs) <
                diffCost (⟨[a], ChangeTag.removed⟩ :: diffLAux f as (b :: bs))
              then ⟨[b], ChangeTag.added⟩ :: diffLAux f (a :: as) bs
              else ⟨[a], ChangeTag.removed⟩ :: diffLAux f as (b :: bs))
            by simp [diffLAux, hab]]
        by_cases hc : diffCost (⟨[b], ChangeTag.added⟩ :: diffLAux f (a :: as) bs) <
            diffCost (⟨[a], ChangeTag.removed⟩ :: diffLAux f as (b :: bs))
        · rw [if_pos hc]
          have h := ih (a :: as) bs
          constructor
          · simp [origOf, h.1]
          · simp [targetOf, h.2]
        · rw [if_neg hc]
          have h := ih as (b :: bs)
          constructor
          · simp [origOf, h.1]
          · simp [targetOf, h.2]

/-- Reconstruction at the line level: applying the planned operations (in
the in-memory model, grouped and executed in descending anchor order) to
the original line array yields the target line array. -/
theorem applyOpsModel_buildOps (originalText targetText : String) :
    applyOpsModel (splitLines originalText) (buildOps originalText targetText) =
      splitLines targetText := by
  rw [applyOpsModel_eq_runDesc]
  unfold buildOps diffLines
  have hv := diffLAux_orig_target
    ((splitLines originalText).length + (splitLines targetText).length)
    (splitLines originalText) (splitLines targetText)
  have hm := runDesc_master
    (diffLAux ((splitLines originalText).length + (splitLines targetText).length)
      (splitLines originalText) (splitLines targetText)) 0 [] [] rfl
  rw [pendOps_nil] at hm
  simp only [List.nil_append] at hm
  rw [hv.1, hv.2] at hm
  exact hm

/-! ### The diff model on equal texts -/

theorem diffLAux_self (l : List String) : ∀ fuel, l.length ≤ fuel →
    diffLAux fuel l l = l.map (fun x => ⟨[x], ChangeTag.unchanged⟩) := by
  induction l with
  | nil =>
    intro fuel _
    cases fuel with
    | zero => simp [diffLAux]
    | succ f => simp [diffLAux]
  | cons a as ih =>
    intro fuel hf
    cases fuel with
    | zero => simp at hf
    | succ f =>
      rw [show diffLAux (f + 1) (a :: as) (a :: as) =
          ⟨[a], ChangeTag.unchanged⟩ :: diffLAux f as as by simp [diffLAux]]
      rw [ih f (by simp at hf; omega)]
      rfl

theorem buildOpsAux_unchanged_map (l : List String) :
    ∀ n, buildOpsAux n (l.map fun x => ⟨[x], ChangeTag.unchanged⟩) = [] := by
  induction l with
  | nil => intro n; rfl
  | cons a as ih => intro n; exact ih (n + 1)

/-- When the original text already equals the target text, the planner
emits no operations. -/
theorem buildOps_self (s : String) : buildOps s s = [] := by
  unfold buildOps diffLines
  rw [diffLAux_self (splitLines s) _ (by omega)]
  exact buildOpsAux_unchanged_map _ 0

theorem applyOpsFrom_eq_runDescFrom (arr : List String) (ops : List PatchOp) (i : Nat) :
    applyOpsFrom arr ops i = runDescFrom arr ops i := by
  unfold applyOpsFrom runDescFrom runOver
  apply foldl_congr_mem
  intro acc j hj
  have hjk : j ∈ (groupOps ops).map Prod.fst :=
    (mem_sortDesc _ _).mp (List.mem_filter.mp hj).1
  have hjo : j ∈ opIndices ops := (mem_keys_groupOps ops j).mp hjk
  rw [getGroup?_groupOps, if_pos hjo]
  exact applyGroupModel_eq_total acc j (groupAt j ops)

theorem runDescFrom_congr (ops₁ ops₂ : List PatchOp) (arr : List String) (i : Nat)
    (hmem : ∀ j, j ∈ opIndices ops₁ ↔ j ∈ opIndices ops₂)
    (hg : ∀ j, groupAt j ops₁ = groupAt j ops₂) :
    runDescFrom arr ops₁ i = runDescFrom arr ops₂ i := by
  unfold runDescFrom
  rw [sortDesc_eq_of_mem_iff ((groupOps ops₁).map Prod.fst) ((groupOps ops₂).map Prod.fst)
    (keys_groupOps_nodup _) (keys_groupOps_nodup _)
    (fun j => by rw [mem_keys_groupOps, mem_keys_groupOps]; exact hmem j)]
  exact runOver_congr _ _ _ _ (fun j _ => hg j)

/-- At the minimum anchor `n`, the groups already executed are exactly
all the groups of `rest`. -/
theorem runDescFrom_min_self (ops rest : List PatchOp) (arr : List String) (n : Nat)
    (hmem : ∀ i, i ∈ opIndices ops ↔ i = n ∨ i ∈ opIndices rest)
    (hgt : ∀ i ∈ opIndices rest, n < i)
    (hcong : ∀ i, ¬ n = i → groupAt i ops = groupAt i rest) :
    runDescFrom arr ops n = runDesc arr rest := by
  unfold runDescFrom
  rw [sortKeys_min ops rest n hmem hgt, List.filter_append]
  rw [show List.filter (fun j => decide (n < j)) [n] = [] by simp]
  rw [List.append_nil]
  rw [List.filter_eq_self.mpr ?hall]
  case hall =>
    intro j hj
    have hjo := (mem_keys_groupOps rest j).mp ((mem_sortDesc _ _).mp hj)
    simpa using hgt j hjo
  rw [runDesc_eq_runOver]
  apply runOver_congr
  intro j hj
  have hjo := (mem_keys_groupOps rest j).mp ((mem_sortDesc _ _).mp hj)
  exact hcong j (by have := hgt j hjo; omega)

/-- Above the minimum anchor `n`, peeling the group at `n` does not
change the set of already-executed groups. -/
theorem runDescFrom_min_gt (ops rest : List PatchOp) (arr : List String) (n i : Nat)
    (hi : n < i)
    (hmem : ∀ j, j ∈ opIndices ops ↔ j = n ∨ j ∈ opIndices rest)
    (hgt : ∀ j ∈ opIndices rest, n < j)
    (hcong : ∀ j, ¬ n = j → groupAt j ops = groupAt j rest) :
    runDescFrom arr ops i = runDescFrom arr rest i := by
  unfold runDescFrom
  rw [sortKeys_min ops rest n hmem hgt, List.filter_append]
  rw [show List.filter (fun j => decide (i < j)) [n] = [] by simp; omega]
  rw [List.append_nil]
  apply runOver_congr
  intro j hj
  have hjo := (mem_keys_groupOps rest j).mp
    ((mem_sortDesc _ _).mp (List.mem_filter.mp hj).1)
  exact hcong j (by have := hgt j hjo; omega)

/-- Anchor-validity master theorem: at the moment the group anchored at
`i` executes, the mutable array still agrees with the original array on
the whole segment the group touches (`i` plus its remove count), because
only higher anchors have been mutated so far. -/
theorem runDescFrom_master (cs : List Change) : ∀ (n : Nat) (pend front : List String),
    front.length = n →
    ∀ i ∈ opIndices (pendOps pend n (buildOpsAux n cs)),
      List.take (i + rmSum i (pendOps pend n (buildOpsAux n cs)))
          (runDescFrom (front ++ origOf cs) (pendOps pend n (buildOpsAux n cs)) i) =
        List.take (i + rmSum i (pendOps pend n (buildOpsAux n cs))) (front ++ origOf cs) := by
  induction cs with
  | nil =>
    intro n pend front hn i hi
    cases pend with
    | nil => simp [pendOps, buildOpsAux, opIndices] at hi
    | cons p ps =>
      rw [pendOps_cons] at hi ⊢
      rw [show buildOpsAux n ([] : List Change) = [] from rfl] at hi ⊢
      have hin : i = n := by simpa [opIndices, PatchOp.opIndex] using hi
      subst hin
      have hr : rmSum i [PatchOp.insert i (p :: ps)] = 0 := by simp [rmSum]
      rw [hr]
      have hf : runDescFrom (front ++ origOf ([] : List Change))
          [PatchOp.insert i (p :: ps)] i = front ++ origOf ([] : List Change) := by
        unfold runDescFrom
        have hg : groupOps [PatchOp.insert i (p :: ps)] = [(i, ⟨0, p :: ps⟩)] := by
          simp [groupOps, groupStep, getGroup?, setGroup, PatchOp.opIndex]
        rw [hg]
        rw [show ([(i, (⟨0, p :: ps⟩ : OpGroup))].map Prod.fst) = [i] from rfl]
        rw [show sortDesc [i] = [i] from rfl]
        simp [runOver]
      rw [hf]
  | cons part parts ih =>
    intro n pend front hn i hi
    obtain ⟨v, tag⟩ := part
    cases tag with
    | unchanged =>
      by_cases hv : v = []
      · subst hv
        rw [buildOpsAux_unchanged] at hi ⊢
        rw [origOf_cons_unchanged]
        simpa using ih n pend front hn i (by simpa using hi)
      · cases pend with
        | nil =>
          rw [pendOps_nil, buildOpsAux_unchanged] at hi ⊢
          rw [origOf_cons_unchanged]
          rw [show front ++ (v ++ origOf parts) = (front ++ v) ++ origOf parts from
            (List.append_assoc front v (origOf parts)).symm]
          have h2 := ih (n + v.length) [] (front ++ v) (by simp [hn]) i
            (by rw [pendOps_nil]; exact hi)
          rw [pendOps_nil] at h2
          exact h2
        | cons p ps =>
          rw [buildOpsAux_unchanged, pendOps_cons] at hi ⊢
          have hgt : ∀ j ∈ opIndices (buildOpsAux (n + v.length) parts), n < j := by
            intro j hj
            have h1 := le_of_mem_opIndices_buildOpsAux parts (n + v.length) j hj
            have h2 : 0 < v.length := List.length_pos.mpr hv
            omega
          have hnr : n ∉ opIndices (buildOpsAux (n + v.length) parts) :=
            fun hc => lt_irrefl n (hgt n hc)
          have hmem : ∀ j, j ∈ opIndices (PatchOp.insert n (p :: ps) ::
              buildOpsAux (n + v.length) parts) ↔
              j = n ∨ j ∈ opIndices (buildOpsAux (n + v.length) parts) := by
            intro j; simp [opIndices, PatchOp.opIndex]
          have hcong : ∀ j, ¬ n = j → groupAt j (PatchOp.insert n (p :: ps) ::
              buildOpsAux (n + v.length) parts) =
              groupAt j (buildOpsAux (n + v.length) parts) :=
            fun j hj => groupAt_insert_cons_ne j n (p :: ps) _ hj
          rcases (hmem i).mp hi with hin | hir
          · subst hin
            have hr : rmSum i (PatchOp.insert i (p :: ps) ::
                buildOpsAux (i + v.length) parts) = 0 := by
              simp [rmSum, rmSum_eq_zero_of_not_mem i _ hnr]
            rw [hr]
            rw [runDescFrom_min_self _ (buildOpsAux (i + v.length) parts) _ i hmem hgt hcong]
            rw [origOf_cons_unchanged]
            rw [show front ++ (v ++ origOf parts) = (front ++ v) ++ origOf parts from
              (List.append_assoc front v (origOf parts)).symm]
            have h2 := runDesc_master parts (i + v.length) [] (front ++ v) (by simp [hn])
            rw [pendOps_nil] at h2
            rw [h2]
            rw [show (front ++ v) ++ [] ++ targetOf parts =
                front ++ (v ++ targetOf parts) by simp]
            rw [Nat.add_zero, ← hn, List.take_left]
            rw [List.append_assoc front v (origOf parts), List.take_left]
          · have hrs : rmSum i (PatchOp.insert n (p :: ps) ::
                buildOpsAux (n + v.length) parts) =
                rmSum i (buildOpsAux (n + v.length) parts) := by
              simp [rmSum]
            rw [hrs]
            rw [runDescFrom_min_gt _ (buildOpsAux (n + v.length) parts) _ n i
              (hgt i hir) hmem hgt hcong]
            rw [origOf_cons_unchanged]
            rw [show front ++ (v ++ origOf parts) = (front ++ v) ++ origOf parts from
              (List.append_assoc front v (origOf parts)).symm]
            have h2 := ih (n + v.length) [] (front ++ v) (by simp [hn]) i
              (by rw [pendOps_nil]; exact hir)
            rw [pendOps_nil] at h2
            exact h2
    | removed =>
      by_cases hv : v = []
      · subst hv
        rw [buildOpsAux_removed_nil] at hi ⊢
        rw [origOf_cons_removed]
        simpa using ih n pend front hn i (by simpa using hi)
      · rw [buildOpsAux_removed n v parts hv] at hi ⊢
        have hgt : ∀ j ∈ opIndices (buildOpsAux (n + v.length) parts), n < j := by
          intro j hj
          have h1 := le_of_mem_opIndices_buildOpsAux parts (n + v.length) j hj
          have h2 : 0 < v.length := List.length_pos.mpr hv
          omega
        have hnr : n ∉ opIndices (buildOpsAux (n + v.length) parts) :=
          fun hc => lt_irrefl n (hgt n hc)
        have hmem : ∀ j, j ∈ opIndices (pendOps pend n (PatchOp.remove n v.length ::
            buildOpsAux (n + v.length) parts)) ↔
            j = n ∨ j ∈ opIndices (buildOpsAux (n + v.length) parts) := by
          intro j
          cases pend with
          | nil => rw [pendOps_nil]; simp [opIndices, PatchOp.opIndex]
          | cons p ps =>
            rw [pendOps_cons]
            simp only [opIndices, List.map_cons, List.mem_cons, PatchOp.opIndex]
            constructor
            · rintro (h | h | h)
              · exact Or.inl h
              · exact Or.inl h
              · exact Or.inr h
            · rintro (h | h)
              · exact Or.inl h
              · exact Or.inr (Or.inr h)
        have hcong : ∀ j, ¬ n = j →
            groupAt j (pendOps pend n (PatchOp.remove n v.length ::
              buildOpsAux (n + v.length) parts)) =
              groupAt j (buildOpsAux (n + v.length) parts) := by
          intro j hj
          rw [groupAt_pendOps_ne j n pend _ hj]
          exact groupAt_remove_cons_ne j n v.length _ hj
        rcases (hmem i).mp hi with hin | hir
        · subst hin
          have hr : rmSum i (pendOps pend i (PatchOp.remove i v.length ::
              buildOpsAux (i + v.length) parts)) = v.length := by
            have := congrArg OpGroup.removeCount (show groupAt i (pendOps pend i
              (PatchOp.remove i v.length :: buildOpsAux (i + v.length) parts)) =
                ⟨v.length, pend⟩ from ?hg)
            · exact this
            case hg =>
              cases pend with
              | nil =>
                rw [pendOps_nil]
                simp [groupAt, rmSum, insConcat, rmSum_eq_zero_of_not_mem i _ hnr,
                  insConcat_eq_nil_of_not_mem i _ hnr]
              | cons p ps =>
                rw [pendOps_cons]
                simp [groupAt, rmSum, insConcat, rmSum_eq_zero_of_not_mem i _ hnr,
                  insConcat_eq_nil_of_not_mem i _ hnr]
          rw [hr]
          rw [runDescFrom_min_self _ (buildOpsAux (i + v.length) parts) _ i hmem hgt hcong]
          rw [origOf_cons_removed]
          rw [show front ++ (v ++ origOf parts) = (front ++ v) ++ origOf parts from
            (List.append_assoc front v (origOf parts)).symm]
          have h2 := runDesc_master parts (i + v.length) [] (front ++ v) (by simp [hn])
          rw [pendOps_nil] at h2
          rw [h2]
          rw [show (front ++ v) ++ [] ++ targetOf parts = (front ++ v) ++ targetOf parts
            by simp]
          rw [show i + v.length = (front ++ v).length by simp [hn]]
          rw [List.take_left, List.take_left]
        · have hrs : rmSum i (pendOps pend n (PatchOp.remove n v.length ::
              buildOpsAux (n + v.length) parts)) =
              rmSum i (buildOpsAux (n + v.length) parts) :=
            congrArg OpGroup.removeCount (hcong i (by have := hgt i hir; omega))
          rw [hrs]
          rw [runDescFrom_min_gt _ (buildOpsAux (n + v.length) parts) _ n i
            (hgt i hir) hmem hgt hcong]
          rw [origOf_cons_removed]
          rw [show front ++ (v ++ origOf parts) = (front ++ v) ++ origOf parts from
            (List.append_assoc front v (origOf parts)).symm]
          have h2 := ih (n + v.length) [] (front ++ v) (by simp [hn]) i
            (by rw [pendOps_nil]; exact hir)
          rw [pendOps_nil] at h2
          exact h2
    | added =>
      by_cases hv : v = []
      · subst hv
        rw [buildOpsAux_added_nil] at hi ⊢
        rw [origOf_cons_added]
        exact ih n pend front hn i hi
      · rw [buildOpsAux_added n v parts hv] at hi ⊢
        have hvv : pend ++ v ≠ [] := fun hc => hv (List.append_eq_nil.mp hc).2
        have hmem2 : ∀ j, j ∈ opIndices (pendOps pend n (PatchOp.insert n v ::
            buildOpsAux n parts)) ↔
            j ∈ opIndices (pendOps (pend ++ v) n (buildOpsAux n parts)) := by
          intro j
          cases pend with
          | nil =>
            rw [pendOps_nil, List.nil_append, pendOps_of_ne_nil v hv]
          | cons p ps =>
            rw [pendOps_cons, pendOps_of_ne_nil _ hvv]
            simp only [opIndices, List.map_cons, List.mem_cons, PatchOp.opIndex]
            constructor
            · rintro (h | h | h)
              · exact Or.inl h
              · exact Or.inl h
              · exact Or.inr h
            · rintro (h | h)
              · exact Or.inl h
              · exact Or.inr (Or.inr h)
        have hg2 : ∀ j, groupAt j (pendOps pend n (PatchOp.insert n v ::
            buildOpsAux n parts)) =
            groupAt j (pendOps (pend ++ v) n (buildOpsAux n parts)) := by
          intro j
          cases pend with
          | nil =>
            rw [pendOps_nil, List.nil_append, pendOps_of_ne_nil v hv]
          | cons p ps =>
            rw [pendOps_cons, pendOps_of_ne_nil _ hvv]
            by_cases hnj : n = j
            · subst hnj
              simp [groupAt, rmSum, insConcat, List.append_assoc]
            · rw [groupAt_insert_cons_ne j n _ _ hnj, groupAt_insert_cons_ne j n _ _ hnj,
                groupAt_insert_cons_ne j n _ _ hnj]
        have hrs : rmSum i (pendOps pend n (PatchOp.insert n v :: buildOpsAux n parts)) =
            rmSum i (pendOps (pend ++ v) n (buildOpsAux n parts)) :=
          congrArg OpGroup.removeCount (hg2 i)
        rw [hrs]
        rw [runDescFrom_congr _ (pendOps (pend ++ v) n (buildOpsAux n parts)) _ i hmem2 hg2]
        rw [origOf_cons_added]
        exact ih n (pend ++ v) front hn i ((hmem2 i).mp hi)

theorem foldl_overlap (current lines : List String) : ∀ m, m ≤ current.length →
    m ≤ lines.length →
    ((List.range m).filterMap
      (fun i => if lines.getD i "" ≠ current.getD i "" then
        some (FastAction.updateLine (lines.getD i "") i) else none)).foldl
      applyFastAction current
    = lines.take m ++ current.drop m := by
  intro m
  induction m with
  | zero => intro _ _; simp
  | succ m ih =>
    intro hc hl
    rw [List.range_succ, List.filterMap_append, List.foldl_append]
    rw [ih (by omega) (by omega)]
    have hmc : m < current.length := by omega
    have hml : m < lines.length := by omega
    have hdrop : current.drop m = current[m] :: current.drop (m + 1) :=
      List.drop_eq_getElem_cons hmc
    have htakelen : (lines.take m).length = m := by
      simp [List.length_take]
      omega
    have htake : lines.take (m + 1) = lines.take m ++ [lines[m]] := by
      rw [List.take_succ]
      simp [List.getElem?_eq_getElem hml]
    by_cases hd : lines.getD m "" ≠ current.getD m ""
    · have hstep : List.filterMap
          (fun i => if lines.getD i "" ≠ current.getD i "" then
            some (FastAction.updateLine (lines.getD i "") i) else none) [m]
          = [FastAction.updateLine (lines.getD m "") m] := by
        simp only [List.filterMap_cons, List.filterMap_nil]
        rw [if_pos hd]
      rw [hstep]
      show (lines.take m ++ current.drop m).set m (lines.getD m "") = _
      rw [List.set_append_right _ _ (le_of_eq htakelen)]
      rw [htakelen, Nat.sub_self, hdrop]
      rw [show (current[m] :: current.drop (m + 1)).set 0 (lines.getD m "") =
          lines.getD m "" :: current.drop (m + 1) from rfl]
      rw [List.getD_eq_getElem lines "" hml, htake, List.append_assoc]
      rfl
    · have hstep : List.filterMap
          (fun i => if lines.getD i "" ≠ current.getD i "" then
            some (FastAction.updateLine (lines.getD i "") i) else none) [m]
          = [] := by
        simp only [List.filterMap_cons, List.filterMap_nil]
        rw [if_neg hd]
      rw [hstep]
      show lines.take m ++ current.drop m = _
      push_neg at hd
      rw [List.getD_eq_getElem lines "" hml, List.getD_eq_getElem current "" hmc] at hd
      rw [hdrop, htake, hd]
      simp

theorem foldl_shrink (arr : List String) (newLen oldLen : Nat)
    (hlen : arr.length = oldLen) (hno : newLen ≤ oldLen) :
    ∀ k, k ≤ oldLen - newLen →
    ((List.range k).map (fun j => FastAction.updateLine "" (oldLen - 1 - j))).foldl
      applyFastAction arr
    = arr.take (oldLen - k) ++ List.replicate k "" := by
  intro k
  induction k with
  | zero =>
    intro _
    simp [Nat.sub_zero, ← hlen, List.take_length]
  | succ k ih =>
    intro hk
    rw [List.range_succ, List.map_append, List.foldl_append]
    rw [ih (by omega)]
    show (arr.take (oldLen - k) ++ List.replicate k "").set (oldLen - 1 - k) "" = _
    have hkold : k < oldLen := by omega
    have htl : (arr.take (oldLen - k)).length = oldLen - k := by
      simp [List.length_take]
      omega
    have hlt : oldLen - 1 - k < (arr.take (oldLen - k)).length := by
      rw [htl]; omega
    rw [List.set_append_left _ _ hlt]
    have h2 : oldLen - k - 1 < arr.length := by omega
    have hsplit : arr.take (oldLen - k) =
        arr.take (oldLen - k - 1) ++ [arr.getD (oldLen - k - 1) ""] := by
      conv_lhs => rw [show oldLen - k = oldLen - k - 1 + 1 from by omega]
      rw [List.take_succ, List.getD_eq_getElem arr "" h2]
      simp [List.getElem?_eq_getElem h2]
    rw [hsplit]
    have hb : oldLen - 1 - k = (arr.take (oldLen - k - 1)).length := by
      simp [List.length_take]
      omega
    rw [hb, List.set_append_right _ _ (le_of_eq rfl), Nat.sub_self]
    rw [show ([arr.getD (oldLen - k - 1) ""].set 0 "") = [""] from rfl]
    rw [show oldLen - (k + 1) = oldLen - k - 1 by omega]
    rw [List.append_assoc]
    rw [show ([""] ++ List.replicate k "" : List String) = List.replicate (k + 1) "" from
      (List.replicate_succ "" k).symm]

/-- Closed form of the fast path in the shrink case: the document keeps
all its line elements, the prefix is rewritten to the target lines and
the excess tail is blanked. -/
theorem fastPatchResult_shrink (current lines : List String)
    (h : lines.length < current.length) :
    fastPatchResult current lines =
      lines ++ List.replicate (current.length - lines.length) "" := by
  unfold fastPatchResult internalPatchSteps
  rw [min_eq_right (le_of_lt h)]
  rw [if_neg (by omega), if_pos h]
  rw [List.foldl_append]
  rw [foldl_overlap current lines lines.length (le_of_lt h) le_rfl]
  rw [List.take_length]
  have hlen : (lines ++ current.drop lines.length).length = current.length := by
    simp
    omega
  rw [foldl_shrink _ lines.length current.length hlen (le_of_lt h)
    (current.length - lines.length) le_rfl]
  rw [show current.length - (current.length - lines.length) = lines.length by omega]
  rw [show (lines ++ current.drop lines.length).take lines.length = lines from
    List.take_left lines (current.drop lines.length)]

/-! ### Claim theorems -/

/-- C1: for every pair of texts, the operation list produced by
`buildOps`, grouped by `groupOps` and applied in descending anchor-index
order to the in-memory line array of the original text (each
`Remove{index,count}` deleting `count` lines at `index`, each
`Insert{index,lines}` inserting the lines before `index`), reconstructs
exactly the line array of the target text. -/
theorem c1_plan_and_apply_reconstructs (originalText targetText : String) :
    applyOpsModel (splitLines originalText) (buildOps originalText targetText) =
      splitLines targetText :=
  applyOpsModel_buildOps originalText targetText

/-- C2: the anchor indices of `applyOps` are iterated in strictly
descending order, and at the moment the group anchored at `i` executes
(`applyOpsFrom`: exactly the higher-anchored groups have already run),
the mutable line array still agrees with the original line array on the
whole segment `[0, i + removeCount)` the group touches — the anchor
computed before the loop still designates the intended lines. -/
theorem c2_descending_order_keeps_anchors_valid (originalText targetText : String) :
    List.Sorted (· > ·)
      (sortDesc ((groupOps (buildOps originalText targetText)).map Prod.fst)) ∧
    ∀ i ∈ opIndices (buildOps originalText targetText),
      List.take (i + rmSum i (buildOps originalText targetText))
          (applyOpsFrom (splitLines originalText) (buildOps originalText targetText) i) =
        List.take (i + rmSum i (buildOps originalText targetText))
          (splitLines originalText) := by
  constructor
  · have h1 := sorted_sortDesc ((groupOps (buildOps originalText targetText)).map Prod.fst)
    have h2 : (sortDesc ((groupOps (buildOps originalText targetText)).map Prod.fst)).Nodup :=
      (sortDesc_perm _).nodup_iff.mpr (keys_groupOps_nodup _)
    exact (h1.and h2).imp fun hab => lt_of_le_of_ne hab.1 (Ne.symm hab.2)
  · intro i hi
    rw [applyOpsFrom_eq_runDescFrom]
    unfold buildOps diffLines at hi ⊢
    have hv := diffLAux_orig_target
      ((splitLines originalText).length + (splitLines targetText).length)
      (splitLines originalText) (splitLines targetText)
    have hm := runDescFrom_master
      (diffLAux ((splitLines originalText).length + (splitLines targetText).length)
        (splitLines originalText) (splitLines targetText)) 0 [] [] rfl i
      (by rw [pendOps_nil]; exact hi)
    rw [pendOps_nil] at hm
    simp only [List.nil_append] at hm
    rw [hv.1] at hm
    exact hm

/-- C2 witness at a concrete input. -/
theorem c2_witness :
    List.Sorted (· > ·)
      (sortDesc ((groupOps (buildOps "a\nb\nc" "a\nx\nc")).map Prod.fst)) ∧
    List.take (1 + rmSum 1 (buildOps "a\nb\nc" "a\nx\nc"))
        (applyOpsFrom (splitLines "a\nb\nc") (buildOps "a\nb\nc" "a\nx\nc") 1) =
      List.take (1 + rmSum 1 (buildOps "a\nb\nc" "a\nx\nc")) (splitLines "a\nb\nc") :=
  ⟨(c2_descending_order_keeps_anchors_valid "a\nb\nc" "a\nx\nc").1,
    (c2_descending_order_keeps_anchors_valid "a\nb\nc" "a\nx\nc").2 1 (by decide)⟩

/-- C3 counterexample: for original `"a\nb\nc"` and target `"a\nx\nc"`
the planner does not emit `Insert{index:1,lines:["x"]}`; the diff library
reports the removed run before the added run, the removed run advances
the cursor, and the insert is therefore anchored at index 2. -/
theorem c3_counterexample :
    buildOps "a\nb\nc" "a\nx\nc" = [PatchOp.remove 1 1, PatchOp.insert 2 ["x"]] ∧
    PatchOp.insert 1 ["x"] ∉ buildOps "a\nb\nc" "a\nx\nc" := by
  constructor
  · decide
  · decide

/-- C3 (amended): for original `"a\nb\nc"` and target `"a\nx\nc"`,
`buildOps` emits exactly `Remove{index:1,count:1}` followed by
`Insert{index:2,lines:["x"]}` (the insert anchored directly after the
removed run), and applying the operations yields the line array of
`"a\nx\nc"`. -/
theorem c3_amended :
    buildOps "a\nb\nc" "a\nx\nc" = [PatchOp.remove 1 1, PatchOp.insert 2 ["x"]] ∧
    applyOpsModel (splitLines "a\nb\nc") (buildOps "a\nb\nc" "a\nx\nc") =
      splitLines "a\nx\nc" := by
  constructor
  · decide
  · decide

/-- C4: `groupOps` merges all operations sharing an anchor into a single
group — the key list carries each anchor once, and the binding at anchor
`i` holds the sum of the remove counts together with the concatenation of
the insert lists in discovery order; in particular a single remove and a
single insert at the same anchor grouped in either input order give the
same `OpGroup`. -/
theorem c4_groupOps_merges_per_index (ops : List PatchOp) (i c : Nat) (v : List String) :
    ((groupOps ops).map Prod.fst).Nodup ∧
    (i ∈ opIndices ops →
      getGroup? (groupOps ops) i = some ⟨rmSum i ops, insConcat i ops⟩) ∧
    groupOps [PatchOp.remove i c, PatchOp.insert i v] =
      groupOps [PatchOp.insert i v, PatchOp.remove i c] := by
  refine ⟨keys_groupOps_nodup ops, ?_, ?_⟩
  · intro hi
    rw [getGroup?_groupOps, if_pos hi]
    rfl
  · simp [groupOps, groupStep, getGroup?, setGroup, PatchOp.opIndex]

/-- C4 witness at a concrete input. -/
theorem c4_witness :
    ((groupOps [PatchOp.remove 1 1, PatchOp.insert 1 ["x"]]).map Prod.fst).Nodup ∧
    getGroup? (groupOps [PatchOp.remove 1 1, PatchOp.insert 1 ["x"]]) 1 =
      some ⟨rmSum 1 [PatchOp.remove 1 1, PatchOp.insert 1 ["x"]],
        insConcat 1 [PatchOp.remove 1 1, PatchOp.insert 1 ["x"]]⟩ ∧
    groupOps [PatchOp.remove 1 1, PatchOp.insert 1 ["x"]] =
      groupOps [PatchOp.insert 1 ["x"], PatchOp.remove 1 1] :=
  ⟨(c4_groupOps_merges_per_index [PatchOp.remove 1 1, PatchOp.insert 1 ["x"]] 1 1 ["x"]).1,
    (c4_groupOps_merges_per_index [PatchOp.remove 1 1, PatchOp.insert 1 ["x"]] 1 1
      ["x"]).2.1 (by decide),
    (c4_groupOps_merges_per_index [PatchOp.remove 1 1, PatchOp.insert 1 ["x"]] 1 1 ["x"]).2.2⟩

/-- C5: when the computed target text equals the original text, the
planner returns an empty operation list, the `patch` trace contains no
write action (no page opened, no fast-path or slow-path step), and —
whenever the staleness pre-check does not abort first — `patch` returns
successfully having done nothing. -/
theorem c5_equal_target_no_mutation (w : PatchWorld) (deps : PatchDeps) (opts : PatchOpts)
    (hparse : deps.parseOk = true)
    (happly : deps.applyPatchFn (linesToText w.first.lines) =
      some (linesToText w.first.lines))
    (hdry : opts.dryRun = false) :
    buildOps (linesToText w.first.lines) (linesToText w.first.lines) = [] ∧
    ((patchModel w deps opts).2.filter fun a => isWriteAction a) = [] ∧
    ((opts.checkUpdated = false ∨ w.second.updated = w.first.updated) →
      (patchModel w deps opts).1 = Except.ok none) := by
  refine ⟨buildOps_self _, ?_, ?_⟩
  · by_cases hcu0 : opts.checkUpdated = true
    · by_cases hne : w.second.updated = w.first.updated
      · simp [patchModel, hparse, happly, hdry, hcu0, hne, buildOps_self, isWriteAction]
      · simp [patchModel, hparse, happly, hdry, hcu0, hne, isWriteAction]
    · simp [patchModel, hparse, happly, hdry, hcu0, buildOps_self, isWriteAction]
  · intro hc
    have hcu : ¬(opts.checkUpdated ∧ w.second.updated ≠ w.first.updated) := by
      rcases hc with hc | hc
      · intro hcon
        rw [hc] at hcon
        simp at hcon
      · exact fun hcon => hcon.2 hc
    simp [patchModel, hparse, happly, hdry, hcu, buildOps_self]

/-- C5 witness at a concrete input. -/
theorem c5_witness :
    buildOps (linesToText (PatchWorld.mk ⟨[⟨none, "a"⟩], 1⟩ ⟨[⟨none, "a"⟩], 1⟩
        ⟨[⟨none, "a"⟩], 1⟩ FastProbe.ok).first.lines)
      (linesToText (PatchWorld.mk ⟨[⟨none, "a"⟩], 1⟩ ⟨[⟨none, "a"⟩], 1⟩
        ⟨[⟨none, "a"⟩], 1⟩ FastProbe.ok).first.lines) = [] ∧
    ((patchModel (PatchWorld.mk ⟨[⟨none, "a"⟩], 1⟩ ⟨[⟨none, "a"⟩], 1⟩
        ⟨[⟨none, "a"⟩], 1⟩ FastProbe.ok) ⟨true, fun s => some s⟩
        ⟨false, false⟩).2.filter fun a => isWriteAction a) = [] ∧
    ((⟨false, false⟩ : PatchOpts).checkUpdated = false ∨
        (PatchWorld.mk ⟨[⟨none, "a"⟩], 1⟩ ⟨[⟨none, "a"⟩], 1⟩
          ⟨[⟨none, "a"⟩], 1⟩ FastProbe.ok).second.updated =
        (PatchWorld.mk ⟨[⟨none, "a"⟩], 1⟩ ⟨[⟨none, "a"⟩], 1⟩
          ⟨[⟨none, "a"⟩], 1⟩ FastProbe.ok).first.updated →
      (patchModel (PatchWorld.mk ⟨[⟨none, "a"⟩], 1⟩ ⟨[⟨none, "a"⟩], 1⟩
        ⟨[⟨none, "a"⟩], 1⟩ FastProbe.ok) ⟨true, fun s => some s⟩
        ⟨false, false⟩).1 = Except.ok none) :=
  c5_equal_target_no_mutation
    (PatchWorld.mk ⟨[⟨none, "a"⟩], 1⟩ ⟨[⟨none, "a"⟩], 1⟩ ⟨[⟨none, "a"⟩], 1⟩ FastProbe.ok)
    ⟨true, fun s => some s⟩ ⟨false, false⟩ rfl rfl rfl

/-- C6: a dry run with a parsable diff whose hunks apply returns the
computed target text and performs nothing beyond the initial read — in
particular no write action. -/
theorem c6_dry_run_returns_target (w : PatchWorld) (deps : PatchDeps) (opts : PatchOpts)
    (t : String)
    (hparse : deps.parseOk = true)
    (happly : deps.applyPatchFn (linesToText w.first.lines) = some t)
    (hdry : opts.dryRun = true) :
    patchModel w deps opts = (Except.ok (some t), [PatchAction.readJson]) ∧
    ((patchModel w deps opts).2.filter fun a => isWriteAction a) = [] := by
  have h : patchModel w deps opts = (Except.ok (some t), [PatchAction.readJson]) := by
    simp [patchModel, hparse, happly, hdry]
  refine ⟨h, ?_⟩
  rw [h]
  rfl

/-- C6 witness at a concrete input. -/
theorem c6_witness :
    patchModel (PatchWorld.mk ⟨[⟨none, "a"⟩], 1⟩ ⟨[⟨none, "a"⟩], 2⟩
        ⟨[⟨none, "a"⟩], 3⟩ FastProbe.ok) ⟨true, fun _ => some "b"⟩ ⟨true, true⟩ =
      (Except.ok (some "b"), [PatchAction.readJson]) ∧
    ((patchModel (PatchWorld.mk ⟨[⟨none, "a"⟩], 1⟩ ⟨[⟨none, "a"⟩], 2⟩
        ⟨[⟨none, "a"⟩], 3⟩ FastProbe.ok) ⟨true, fun _ => some "b"⟩
        ⟨true, true⟩).2.filter fun a => isWriteAction a) = [] :=
  c6_dry_run_returns_target
    (PatchWorld.mk ⟨[⟨none, "a"⟩], 1⟩ ⟨[⟨none, "a"⟩], 2⟩ ⟨[⟨none, "a"⟩], 3⟩ FastProbe.ok)
    ⟨true, fun _ => some "b"⟩ ⟨true, true⟩ "b" rfl rfl rfl

/-- C7: with the staleness check enabled, if the re-read revision token
differs from the captured one, `patch` fails with the concurrent
modification error after the two reads and before any write action. -/
theorem c7_staleness_aborts_before_mutation (w : PatchWorld) (deps : PatchDeps)
    (opts : PatchOpts) (t : String)
    (hparse : deps.parseOk = true)
    (happly : deps.applyPatchFn (linesToText w.first.lines) = some t)
    (hdry : opts.dryRun = false)
    (hcu : opts.checkUpdated = true)
    (hne : w.second.updated ≠ w.first.updated) :
    (patchModel w deps opts).1 = Except.error PatchError.concurrentModification ∧
    (patchModel w deps opts).2 = [PatchAction.readJson, PatchAction.readJson] ∧
    ((patchModel w deps opts).2.filter fun a => isWriteAction a) = [] := by
  have h2 : (patchModel w deps opts).2 = [PatchAction.readJson, PatchAction.readJson] := by
    simp [patchModel, hparse, happly, hdry, hcu, hne]
  refine ⟨?_, h2, ?_⟩
  · simp [patchModel, hparse, happly, hdry, hcu, hne]
  · rw [h2]
    rfl

/-- C7 witness at a concrete input. -/
theorem c7_witness :
    (patchModel (PatchWorld.mk ⟨[⟨none, "a"⟩], 1⟩ ⟨[⟨none, "a"⟩], 2⟩
        ⟨[⟨none, "a"⟩], 3⟩ FastProbe.ok) ⟨true, fun _ => some "b"⟩
        ⟨true, false⟩).1 = Except.error PatchError.concurrentModification ∧
    (patchModel (PatchWorld.mk ⟨[⟨none, "a"⟩], 1⟩ ⟨[⟨none, "a"⟩], 2⟩
        ⟨[⟨none, "a"⟩], 3⟩ FastProbe.ok) ⟨true, fun _ => some "b"⟩
        ⟨true, false⟩).2 = [PatchAction.readJson, PatchAction.readJson] ∧
    ((patchModel (PatchWorld.mk ⟨[⟨none, "a"⟩], 1⟩ ⟨[⟨none, "a"⟩], 2⟩
        ⟨[⟨none, "a"⟩], 3⟩ FastProbe.ok) ⟨true, fun _ => some "b"⟩
        ⟨true, false⟩).2.filter fun a => isWriteAction a) = [] :=
  c7_staleness_aborts_before_mutation
    (PatchWorld.mk ⟨[⟨none, "a"⟩], 1⟩ ⟨[⟨none, "a"⟩], 2⟩ ⟨[⟨none, "a"⟩], 3⟩ FastProbe.ok)
    ⟨true, fun _ => some "b"⟩ ⟨true, false⟩ "b" rfl rfl rfl rfl (by decide)

/-- C8: whenever the fast-path probe throws or the structured mutation
capability is absent, `tryInternalPatch` reports `false`, `patch`
proceeds through the slow path (editor click and slow-path operations
appear in the trace), and the call's outcome is decided only by
verification — no error from the probe reaches the caller. -/
theorem c8_fast_path_failure_falls_back (w : PatchWorld) (deps : PatchDeps)
    (opts : PatchOpts) (t : String)
    (hparse : deps.parseOk = true)
    (happly : deps.applyPatchFn (linesToText w.first.lines) = some t)
    (hdry : opts.dryRun = false)
    (hstale : ¬(opts.checkUpdated ∧ w.second.updated ≠ w.first.updated))
    (hops : buildOps (linesToText w.first.lines) t ≠ [])
    (hprobe : w.probe ≠ FastProbe.ok) :
    tryInternalPatchModel w.probe = false ∧
    PatchAction.clickEditor ∈ (patchModel w deps opts).2 ∧
    PatchAction.slowOps ∈ (patchModel w deps opts).2 ∧
    ((patchModel w deps opts).1 = Except.ok none ∨
      (patchModel w deps opts).1 = Except.error PatchError.verificationFailed) := by
  have hint : tryInternalPatchModel w.probe = false := by
    cases hp : w.probe with
    | ok => exact absurd hp hprobe
    | capabilityMissing => rfl
    | threw => rfl
  have hlen : ¬((buildOps (linesToText w.first.lines) t).length = 0) := by
    simpa [List.length_eq_zero] using hops
  by_cases hver : linesToText w.final.lines ≠ t
  · refine ⟨hint, ?_, ?_, Or.inr ?_⟩ <;>
      simp [patchModel, hparse, happly, hdry, hstale, hint, hlen, hver]
  · refine ⟨hint, ?_, ?_, Or.inl ?_⟩ <;>
      simp [patchModel, hparse, happly, hdry, hstale, hint, hlen, hver]

/-- C8 witness at a concrete input. -/
theorem c8_witness :
    tryInternalPatchModel (PatchWorld.mk ⟨[⟨none, "a"⟩], 1⟩ ⟨[⟨none, "a"⟩], 1⟩
        ⟨[⟨none, "b"⟩], 2⟩ FastProbe.threw).probe = false ∧
    PatchAction.clickEditor ∈ (patchModel (PatchWorld.mk ⟨[⟨none, "a"⟩], 1⟩
        ⟨[⟨none, "a"⟩], 1⟩ ⟨[⟨none, "b"⟩], 2⟩ FastProbe.threw)
        ⟨true, fun _ => some "b"⟩ ⟨false, false⟩).2 ∧
    PatchAction.slowOps ∈ (patchModel (PatchWorld.mk ⟨[⟨none, "a"⟩], 1⟩
        ⟨[⟨none, "a"⟩], 1⟩ ⟨[⟨none, "b"⟩], 2⟩ FastProbe.threw)
        ⟨true, fun _ => some "b"⟩ ⟨false, false⟩).2 ∧
    ((patchModel (PatchWorld.mk ⟨[⟨none, "a"⟩], 1⟩ ⟨[⟨none, "a"⟩], 1⟩
        ⟨[⟨none, "b"⟩], 2⟩ FastProbe.threw) ⟨true, fun _ => some "b"⟩
        ⟨false, false⟩).1 = Except.ok none ∨
      (patchModel (PatchWorld.mk ⟨[⟨none, "a"⟩], 1⟩ ⟨[⟨none, "a"⟩], 1⟩
        ⟨[⟨none, "b"⟩], 2⟩ FastProbe.threw) ⟨true, fun _ => some "b"⟩
        ⟨false, false⟩).1 = Except.error PatchError.verificationFailed) :=
  c8_fast_path_failure_falls_back
    (PatchWorld.mk ⟨[⟨none, "a"⟩], 1⟩ ⟨[⟨none, "a"⟩], 1⟩ ⟨[⟨none, "b"⟩], 2⟩ FastProbe.threw)
    ⟨true, fun _ => some "b"⟩ ⟨false, false⟩ "b" rfl rfl rfl
    (by intro hcon; simp at hcon) (by decide) (by decide)

/-- C9: in the fast path's shrink case the document keeps every line
element: the result is the target lines followed by blank placeholder
lines, its length is the maximum of the two lengths, every index from
the target length up to the current length carries empty text, and in
the overlapping prefix an update is issued exactly for the indices whose
text differs from the target. -/
theorem c9_fast_path_shrink_blanks_tail (current lines : List String)
    (h : lines.length < current.length) :
    fastPatchResult current lines =
      lines ++ List.replicate (current.length - lines.length) "" ∧
    (fastPatchResult current lines).length = max current.length lines.length ∧
    (fastPatchResult current lines).drop lines.length =
      List.replicate (current.length - lines.length) "" ∧
    (∀ t i, i < lines.length →
      (FastAction.updateLine t i ∈ internalPatchSteps current lines ↔
        (t = lines.getD i "" ∧ lines.getD i "" ≠ current.getD i ""))) := by
  have hc := fastPatchResult_shrink current lines h
  refine ⟨hc, ?_, ?_, ?_⟩
  · rw [hc]
    simp
    omega
  · rw [hc]
    exact List.drop_left lines (List.replicate (current.length - lines.length) "")
  · intro t i hi
    unfold internalPatchSteps
    rw [min_eq_right (le_of_lt h), if_neg (by omega), if_pos h]
    constructor
    · intro hmem
      rcases List.mem_append.mp hmem with hmem | hmem
      · obtain ⟨j, hj, hjeq⟩ := List.mem_filterMap.mp hmem
        by_cases hd : lines.getD j "" ≠ current.getD j ""
        · rw [if_pos hd] at hjeq
          have hji := (Option.some.injEq _ _).mp hjeq
          have ht : lines.getD j "" = t ∧ j = i := by
            constructor
            · exact (FastAction.updateLine.injEq _ _ _ _).mp hji |>.1
            · exact (FastAction.updateLine.injEq _ _ _ _).mp hji |>.2
          obtain ⟨ht1, ht2⟩ := ht
          subst ht2
          exact ⟨ht1.symm, hd⟩
        · rw [if_neg hd] at hjeq
          exact absurd hjeq (by simp)
      · obtain ⟨k, hk, hkeq⟩ := List.mem_map.mp hmem
        have hklt : k < current.length - lines.length := List.mem_range.mp hk
        have hki : current.length - 1 - k = i :=
          ((FastAction.updateLine.injEq _ _ _ _).mp hkeq).2
        omega
    · rintro ⟨ht, hd⟩
      apply List.mem_append.mpr
      apply Or.inl
      apply List.mem_filterMap.mpr
      exact ⟨i, List.mem_range.mpr hi, by rw [if_pos hd, ht]⟩

/-- C9 witness at a concrete input. -/
theorem c9_witness :
    fastPatchResult ["a", "b", "c"] ["x"] =
      ["x"] ++ List.replicate ((["a", "b", "c"] : List String).length -
        (["x"] : List String).length) "" ∧
    (fastPatchResult ["a", "b", "c"] ["x"]).length =
      max (["a", "b", "c"] : List String).length (["x"] : List String).length ∧
    (fastPatchResult ["a", "b", "c"] ["x"]).drop (["x"] : List String).length =
      List.replicate ((["a", "b", "c"] : List String).length -
        (["x"] : List String).length) "" ∧
    (FastAction.updateLine "x" 0 ∈ internalPatchSteps ["a", "b", "c"] ["x"] ↔
      ("x" = (["x"] : List String).getD 0 "" ∧
        (["x"] : List String).getD 0 "" ≠ (["a", "b", "c"] : List String).getD 0 "")) :=
  ⟨(c9_fast_path_shrink_blanks_tail ["a", "b", "c"] ["x"] (by decide)).1,
    (c9_fast_path_shrink_blanks_tail ["a", "b", "c"] ["x"] (by decide)).2.1,
    (c9_fast_path_shrink_blanks_tail ["a", "b", "c"] ["x"] (by decide)).2.2.1,
    (c9_fast_path_shrink_blanks_tail ["a", "b", "c"] ["x"] (by decide)).2.2.2 "x" 0
      (by decide)⟩

/-- C10: a dry run returns the computed target text before the staleness
re-check happens — even with the check enabled and the revision token
changed, the call succeeds, never reports concurrent modification, and
performs exactly one read. -/
theorem c10_dry_run_precedes_staleness_check (w : PatchWorld) (deps : PatchDeps)
    (opts : PatchOpts) (t : String)
    (hparse : deps.parseOk = true)
    (happly : deps.applyPatchFn (linesToText w.first.lines) = some t)
    (hdry : opts.dryRun = true) :
    (patchModel w deps opts).1 = Except.ok (some t) ∧
    (patchModel w deps opts).1 ≠ Except.error PatchError.concurrentModification ∧
    (patchModel w deps opts).2.count PatchAction.readJson = 1 := by
  have h : patchModel w deps opts = (Except.ok (some t), [PatchAction.readJson]) := by
    simp [patchModel, hparse, happly, hdry]
  rw [h]
  refine ⟨rfl, ?_, ?_⟩
  · intro hcon
    exact Except.noConfusion hcon
  · rfl

/-- C10 witness at a concrete input: the check is enabled and the token
has changed, yet the dry run succeeds with a single read. -/
theorem c10_witness :
    (patchModel (PatchWorld.mk ⟨[⟨none, "a"⟩], 1⟩ ⟨[⟨none, "a"⟩], 2⟩
        ⟨[⟨none, "a"⟩], 3⟩ FastProbe.ok) ⟨true, fun _ => some "b"⟩
        ⟨true, true⟩).1 = Except.ok (some "b") ∧
    (patchModel (PatchWorld.mk ⟨[⟨none, "a"⟩], 1⟩ ⟨[⟨none, "a"⟩], 2⟩
        ⟨[⟨none, "a"⟩], 3⟩ FastProbe.ok) ⟨true, fun _ => some "b"⟩
        ⟨true, true⟩).1 ≠ Except.error PatchError.concurrentModification ∧
    (patchModel (PatchWorld.mk ⟨[⟨none, "a"⟩], 1⟩ ⟨[⟨none, "a"⟩], 2⟩
        ⟨[⟨none, "a"⟩], 3⟩ FastProbe.ok) ⟨true, fun _ => some "b"⟩
        ⟨true, true⟩).2.count PatchAction.readJson = 1 :=
  c10_dry_run_precedes_staleness_check
    (PatchWorld.mk ⟨[⟨none, "a"⟩], 1⟩ ⟨[⟨none, "a"⟩], 2⟩ ⟨[⟨none, "a"⟩], 3⟩ FastProbe.ok)
    ⟨true, fun _ => some "b"⟩ ⟨true, true⟩ "b" rfl rfl rfl

end ScrapboxSkill
